import Mathlib

/-!
# Shallow embedding of `pkg/services/object_manager/transformer/transformer.go`

The payload splitter (`payloadSizeLimiter`) streams a logical object's payload
into size-bounded physical chunks, accumulating per-chunk and whole-payload
checksums and emitting parent/linking metadata objects.

Modelling conventions:
* Payload bytes are modelled as `Nat` (their values are opaque to the splitter).
* The Go struct's immutable configuration (`maxSize`, `targetInit`) is passed
  as parameters `M : Nat` and `hasF : Bool` (whether a sink factory was
  supplied); the mutable fields form `State`.
* The external hash algorithms (`sha256.New()`, `tz.New()`) are opaque to this
  repository; a `hash.Hash` is modelled by the list of bytes fed to it, and its
  `Sum(nil)` by applying an abstract digest function (`Hs`, `Ht`). The two
  hashers of a pair are driven by the same `io.MultiWriter`, so their byte
  streams are identical and recorded once (`currentStream`, `parentStream`);
  the sink (`s.target`) is part of the same multi-writer and receives the same
  bytes, so `currentStream` also models the payload streamed to the current
  sink. `currentStream = none` models a nil `target`/`currentHashers`
  (before the first `initializeCurrent`).
* Go runtime panics — division by zero when `maxSize == 0`, calling a nil
  `targetInit`, calling `WriteHeader` on a nil `target`, and the
  `checksumWriter` length-mismatch panics — are modelled by `none`. The
  modelled sink itself never fails, so `none` always stands for a panic,
  never for a returned Go `error`.
-/

/-- Flat object metadata record (`object.RawObject` without its parent slot):
container id, owner id, attributes, and the fields the splitter sets. -/
structure ObjMeta where
  containerID : Option Nat := none
  ownerID : Option Nat := none
  attributes : List Nat := []
  payloadSize : Option Nat := none
  payloadChecksum : Option (List Nat) := none
  payloadHomomorphicHash : Option (List Nat) := none
  previousID : Option Nat := none
  children : List Nat := []
  id : Option Nat := none
deriving DecidableEq

/-- `object.RawObject`: metadata plus an optional embedded parent header
(`SetParent` stores a full header; a parent never itself has a parent here). -/
structure RawObject extends ObjMeta where
  parent : Option ObjMeta := none
deriving DecidableEq

/-- `objectSDK.NewRaw()` / `object.NewRaw()`: a fresh object with no fields set. -/
def RawObject.empty : RawObject := {}

def ObjMeta.empty : ObjMeta := {}

/-- `fromObject`: copies container id, owner id and attributes into a fresh object
(transformer.go lines 88-95). -/
def fromObject (obj : RawObject) : RawObject :=
  { containerID := obj.containerID
    ownerID := obj.ownerID
    attributes := obj.attributes }

/-- `*AccessIdentifiers`: the identifiers returned by a sink's `Close`
(self id, and the parent id when the flushed header embedded a parent). -/
structure AccessIdentifiers where
  self : Nat
  parent : Option Nat := none
deriving DecidableEq

/-- Record of one object handed to a sink: the header passed to the sink's
`WriteHeader`, the payload bytes previously streamed to that sink, and the
identifier the sink assigned at `Close`. -/
structure Emitted where
  obj : RawObject
  payload : List Nat
  selfId : Nat
deriving DecidableEq

/-- Mutable state of `payloadSizeLimiter` (transformer.go lines 16-30).
`emitted` and `nextId` belong to the modelled sink side: the ordered journal of
objects flushed to sinks and the sink's identifier counter. -/
structure State where
  written : Nat := 0
  current : RawObject := RawObject.empty
  parent : Option RawObject := none
  currentStream : Option (List Nat) := none
  parentStream : Option (List Nat) := none
  previous : List Nat := []
  emitted : List Emitted := []
  nextId : Nat := 0
deriving DecidableEq

/-- The constructed splitter: configuration plus initial state. -/
structure Limiter where
  maxSize : Nat
  hasTargetInit : Bool
  st : State
deriving DecidableEq

/-- `NewPayloadSizeLimiter` (transformer.go lines 46-51): stores the
configuration and returns the splitter. No validation is performed. -/
def NewPayloadSizeLimiter (maxSize : Nat) (hasTargetInit : Bool) : Limiter :=
  { maxSize := maxSize, hasTargetInit := hasTargetInit, st := {} }

/-- `WriteHeader` (transformer.go lines 53-57): `s.current = fromObject(hdr)`. -/
def WriteHeader (hdr : RawObject) (st : State) : State :=
  { st with current := fromObject hdr }

/-- sha256 `checksumWriter` (transformer.go lines 105-117): panics (`none`)
unless the digest has exactly `sha256.Size = 32` bytes, otherwise stores the
checksum into the limiter's `current` object — the closure captures the
limiter `s` and reads `s.current` at call time. -/
def shaChecksumWrite (cs : List Nat) (st : State) : Option State :=
  if cs.length = 32 then
    some { st with current := { st.current with payloadChecksum := some cs } }
  else none

/-- Tillich-Zemor `checksumWriter` (transformer.go lines 121-133): panics
(`none`) unless the digest has exactly `tzChecksumSize = 64` bytes, otherwise
stores the homomorphic checksum into the limiter's `current` object (again
read at call time through the captured limiter). -/
def tzChecksumWrite (cs : List Nat) (st : State) : Option State :=
  if cs.length = 64 then
    some { st with current := { st.current with payloadHomomorphicHash := some cs } }
  else none

/-- `writeHashes` (transformer.go lines 194-199) applied to one hasher pair
whose accumulated byte stream is `feed`: finalizes `Hs feed` and `Ht feed`
through the two checksum writers. -/
def writeHashes (Hs Ht : List Nat → List Nat) (feed : List Nat) (st : State) :
    Option State :=
  (shaChecksumWrite (Hs feed) st).bind (tzChecksumWrite (Ht feed))

/-- `initializeCurrent` (transformer.go lines 97-151): constructs a fresh sink
from the factory (panic, i.e. `none`, if the factory is absent), fresh payload
hashers, and the multi-writer. The fresh sink/hasher byte stream starts empty;
the parent hashers keep their accumulated stream. -/
def initializeCurrent (hasF : Bool) (st : State) : Option State :=
  if hasF then some { st with currentStream := some [] } else none

/-- `initialize` (transformer.go lines 71-86): after the first object, snapshot
the current object and hashers as the parent (once, when exactly one object was
released) and point the new current object at the last released identifier. -/
def initializeNext (hasF : Bool) (st : State) : Option State :=
  let st :=
    if st.previous.length > 0 then
      let st :=
        if st.previous.length = 1 then
          { st with
              parent := some st.current
              parentStream := st.currentStream
              current := fromObject st.current }
        else st
      { st with current := { st.current with previousID := st.previous.getLast? } }
    else st
  initializeCurrent hasF st

/-- Modelled from the spec: the Object Sink contract (spec sections 4.3 and 4.1),
whose implementation is not under `src/`. Closing the sink assigns a fresh
identifier to the flushed object and, when the flushed header embeds a parent
that does not yet have an identifier, assigns the parent its identifier as well
(the splitter later reads it back through `current.GetParent().GetID()`).
Identifiers are modelled as successive values of the counter `nextId`. -/
def closeTarget (st : State) : AccessIdentifiers × State :=
  match st.current.parent with
  | none => ({ self := st.nextId }, { st with nextId := st.nextId + 1 })
  | some p =>
    match p.id with
    | none =>
      ({ self := st.nextId, parent := some (st.nextId + 1) },
       { st with
           current := { st.current with parent := some { p with id := some (st.nextId + 1) } }
           nextId := st.nextId + 2 })
    | some pid =>
      ({ self := st.nextId, parent := some pid }, { st with nextId := st.nextId + 1 })

/-- The body of `release` shared by both modes (transformer.go lines 165-179)
— and exactly `release(false)`, for which `withParent` is false: finalize the
current hashers, flush the current header to the sink (panic if the sink was
never initialized, i.e. a nil `target`), close the sink and append the
returned identifier to `previous`. -/
def releaseFalse (Hs Ht : List Nat → List Nat) (st : State) :
    Option (AccessIdentifiers × State) :=
  let st? :=
    match st.currentStream with
    | some feed => writeHashes Hs Ht feed st
    | none => some st
  st?.bind fun st =>
    match st.currentStream with
    | none => none
    | some feed =>
      let (ids, st) := closeTarget st
      let st :=
        { st with
            emitted := st.emitted ++ [{ obj := st.current, payload := feed, selfId := ids.self }]
            previous := st.previous ++ [ids.self] }
      some (ids, st)

/-- `initializeLinking` (transformer.go lines 201-210): read the parent's id
from the current object's embedded parent, build a bare parent reference with
just that id, and replace the current object by a fresh template carrying the
full `previous` list as children and the bare parent reference. -/
def initializeLinking (st : State) : State :=
  let id := st.current.parent.bind (fun p => p.id)
  let par : ObjMeta := { ObjMeta.empty with id := id }
  let cur := fromObject st.current
  { st with current := { cur with children := st.previous, parent := some par } }

/-- `release(true)` — the `Close` path (transformer.go lines 67-69 and 153-192):
when at least one object was already released, finalize the parent hashers
(whose checksum writers store into `s.current`!), set the parent's payload
size, embed the parent into the current object, release the current object,
then generate and release the linking object, discarding the linking object's
identifiers and returning those of the released current object. -/
def releaseTrue (Hs Ht : List Nat → List Nat) (hasF : Bool) (st : State) :
    Option (AccessIdentifiers × State) :=
  let withParent := st.previous.length > 0
  let st? :=
    if withParent then
      let st? :=
        match st.parentStream with
        | some pfeed => writeHashes Hs Ht pfeed st
        | none => some st
      st?.bind fun st =>
        match st.parent with
        | some par =>
          let par := { par with payloadSize := some st.written }
          some { st with
                   parent := some par
                   current := { st.current with parent := some par.toObjMeta } }
        | none => none
    else some st
  st?.bind fun st =>
    (releaseFalse Hs Ht st).bind fun (ids, st) =>
      if withParent then
        let st := initializeLinking st
        (initializeCurrent hasF st).bind fun st =>
          (releaseFalse Hs Ht st).bind fun (_, st) => some (ids, st)
      else some (ids, st)

/-- `s.chunkWriter.Write(p)` (transformer.go line 239): the multi-writer feeds
the current sink and current hashers (`currentStream`) and, when present, the
parent hashers (`parentStream`). A nil `chunkWriter` is unreachable because
the boundary branch initializes the writer on the very first call. -/
def chunkWrite (st : State) (p : List Nat) : State :=
  { st with
      currentStream := st.currentStream.map (· ++ p)
      parentStream := st.parentStream.map (· ++ p) }

/-- The boundary block of `writeChunk` (transformer.go lines 213-226): at an
exact multiple of `maxSize` — stream start, or a previous write that landed on
the boundary — release the current object (discarding its identifiers) unless
nothing was written yet, then initialize the next object. -/
def boundaryStep (Hs Ht : List Nat → List Nat) (M : Nat) (hasF : Bool)
    (st : State) : Option State :=
  if st.written % M = 0 then
    (if 0 < st.written then (releaseFalse Hs Ht st).map Prod.snd else some st).bind
      (initializeNext hasF)
  else some st

/-- `writeChunk` (transformer.go lines 212-252), fuelled: the Go recursion
shortens the remaining chunk by at least one byte per call (in the recursive
branch `cut = leftToEdge ≥ 1`), so any fuel above `chunk.length` is enough and
the out-of-fuel branch is unreachable (`writeChunkF_fuel`). `M = 0` models the
division-by-zero panic of `s.written % s.maxSize`. -/
def writeChunkF (Hs Ht : List Nat → List Nat) (M : Nat) (hasF : Bool) :
    Nat → State → List Nat → Option State
  | 0, _, _ => none
  | fuel + 1, st, chunk =>
    if M = 0 then none
    else
      (boundaryStep Hs Ht M hasF st).bind fun st =>
        let ln := chunk.length
        let leftToEdge := M - st.written % M
        let cut := if ln > leftToEdge then leftToEdge else ln
        let st2 : State := { chunkWrite st (chunk.take cut) with written := st.written + cut }
        if ln > leftToEdge then writeChunkF Hs Ht M hasF fuel st2 (chunk.drop cut)
        else some st2

/-- `writeChunk` = `Write` (transformer.go lines 59-65): on success Go reports
all bytes consumed, so only the state transition is modelled. -/
def writeChunk (Hs Ht : List Nat → List Nat) (M : Nat) (hasF : Bool)
    (st : State) (chunk : List Nat) : Option State :=
  writeChunkF Hs Ht M hasF (chunk.length + 1) st chunk

/-- A sequence of `Write` calls. -/
def runWrites (Hs Ht : List Nat → List Nat) (M : Nat) (hasF : Bool)
    (st : State) (ps : List (List Nat)) : Option State :=
  ps.foldlM (fun s p => writeChunk Hs Ht M hasF s p) st

/-- The full stream `WriteHeader; Write*; Close` from a fresh splitter. -/
def closeRun (Hs Ht : List Nat → List Nat) (M : Nat) (hasF : Bool)
    (hdr : RawObject) (ps : List (List Nat)) : Option (AccessIdentifiers × State) :=
  (runWrites Hs Ht M hasF (WriteHeader hdr (NewPayloadSizeLimiter M hasF).st) ps).bind
    (releaseTrue Hs Ht hasF)

/-- The emissions that are payload chunks: every object the splitter flushes has
an empty children list except the linking object (whose children list is the
non-empty `previous` chain). -/
def chunkList (st : State) : List Emitted :=
  st.emitted.filter fun e => e.obj.children.isEmpty

/-! ## Splitting a byte list at multiples of `M` (specification device) -/

/-- Fuelled splitting of `l` into consecutive parts of `M` bytes (the last part
keeps the remainder). Fuel `l.length` always suffices when `M ≠ 0`. -/
def chunkifyF (M : Nat) : Nat → List Nat → List (List Nat)
  | _, [] => []
  | 0, l => [l]
  | f + 1, l => l.take M :: chunkifyF M f (l.drop M)

/-- The boundary-exact partition of `l` into chunks of size `M`. -/
def chunkify (M : Nat) (l : List Nat) : List (List Nat) :=
  chunkifyF M l.length l


theorem chunkifyF_fuel (M : Nat) (hM : M ≠ 0) :
    ∀ f g l, l.length ≤ f → l.length ≤ g →
      chunkifyF M f l = chunkifyF M g l := by
  intro f
  induction f with
  | zero =>
    intro g l hf _
    have hl : l = [] := List.eq_nil_of_length_eq_zero (Nat.le_zero.mp hf)
    subst hl
    simp [chunkifyF]
  | succ f ih =>
    intro g l hf hg
    match l, g with
    | [], g => simp [chunkifyF]
    | a :: l', 0 => simp at hg
    | a :: l', g + 1 =>
      simp only [chunkifyF]
      have hlen : ((a :: l').drop M).length = (a :: l').length - M := by
        simp [List.length_drop]
      have hMpos : 1 ≤ M := Nat.one_le_iff_ne_zero.mpr hM
      simp only [List.length_cons] at hf hg
      rw [ih g ((a :: l').drop M) (by rw [hlen]; simp; omega) (by rw [hlen]; simp; omega)]

theorem chunkify_nil (M : Nat) : chunkify M [] = [] := rfl

theorem chunkify_cons_eq (M : Nat) (hM : M ≠ 0) (l : List Nat) (hl : l ≠ []) :
    chunkify M l = l.take M :: chunkify M (l.drop M) := by
  match l with
  | a :: l' =>
    have hMpos : 1 ≤ M := Nat.one_le_iff_ne_zero.mpr hM
    show chunkifyF M (l'.length + 1) (a :: l') = _
    simp only [chunkifyF]
    rw [chunkifyF_fuel M hM l'.length ((a :: l').drop M).length ((a :: l').drop M)
      (by simp [List.length_drop]; omega) (le_refl _)]
    rfl

theorem chunkify_small (M : Nat) (hM : M ≠ 0) (l : List Nat) (hl : l ≠ [])
    (hlen : l.length ≤ M) : chunkify M l = [l] := by
  rw [chunkify_cons_eq M hM l hl, List.take_of_length_le hlen,
    List.drop_eq_nil_of_le hlen, chunkify_nil]

/-- Strong-induction helper: every property of byte lists provable by peeling
`M` bytes at a time. -/
theorem chunkify_induction (M : Nat) (hM : M ≠ 0) (P : List Nat → Prop)
    (hnil : P [])
    (hstep : ∀ l, l ≠ [] → P (l.drop M) → P l) :
    ∀ l, P l := by
  suffices h : ∀ n l, l.length = n → P l by
    intro l; exact h l.length l rfl
  intro n
  induction n using Nat.strong_induction_on with
  | _ n ih =>
    intro l hn
    match l with
    | [] => exact hnil
    | a :: l' =>
      refine hstep _ (by simp) (ih ((a :: l').drop M).length ?_ _ rfl)
      have hMpos : 1 ≤ M := Nat.one_le_iff_ne_zero.mpr hM
      simp only [List.length_drop]
      subst hn
      simp
      omega

theorem chunkify_flatten (M : Nat) (hM : M ≠ 0) (l : List Nat) :
    (chunkify M l).flatten = l := by
  induction l using chunkify_induction M hM with
  | hnil => rfl
  | hstep l hl ih =>
    rw [chunkify_cons_eq M hM l hl, List.flatten_cons, ih, List.take_append_drop]

theorem chunkify_ne_nil (M : Nat) (hM : M ≠ 0) (l : List Nat) (hl : l ≠ []) :
    chunkify M l ≠ [] := by
  rw [chunkify_cons_eq M hM l hl]; simp

theorem chunkify_length (M : Nat) (hM : M ≠ 0) (l : List Nat) :
    (chunkify M l).length = (l.length + M - 1) / M := by
  induction l using chunkify_induction M hM with
  | hnil =>
    rw [chunkify_nil]
    simp only [List.length_nil]
    rw [Nat.div_eq_of_lt (by omega)]
  | hstep l hl ih =>
    rw [chunkify_cons_eq M hM l hl]
    have hMpos : 1 ≤ M := Nat.one_le_iff_ne_zero.mpr hM
    have hlpos : 1 ≤ l.length := List.length_pos.mpr hl
    by_cases hsmall : l.length ≤ M
    · rw [List.drop_eq_nil_of_le hsmall, chunkify_nil]
      have h1 : (l.length + M - 1) / M = 1 := by
        apply Nat.div_eq_of_lt_le <;> omega
      simp [h1]
    · push_neg at hsmall
      simp only [List.length_cons, ih, List.length_drop]
      have h1 : l.length - M + M - 1 = (l.length - M - 1) + M := by omega
      have h2 : l.length + M - 1 = (l.length - 1) + M := by omega
      have h3 : l.length - 1 = (l.length - M - 1) + M := by omega
      rw [h1, h2, Nat.add_div_right _ (by omega), Nat.add_div_right _ (by omega), h3,
        Nat.add_div_right _ (by omega)]

theorem chunkify_mem_le (M : Nat) (hM : M ≠ 0) (l : List Nat) :
    ∀ p ∈ chunkify M l, p.length ≤ M := by
  induction l using chunkify_induction M hM with
  | hnil => simp [chunkify_nil]
  | hstep l hl ih =>
    rw [chunkify_cons_eq M hM l hl]
    intro p hp
    rcases List.mem_cons.mp hp with h | h
    · subst h; simp
    · exact ih p h

theorem chunkify_dropLast_len (M : Nat) (hM : M ≠ 0) (l : List Nat) :
    ∀ p ∈ (chunkify M l).dropLast, p.length = M := by
  induction l using chunkify_induction M hM with
  | hnil => simp [chunkify_nil]
  | hstep l hl ih =>
    rw [chunkify_cons_eq M hM l hl]
    by_cases hsmall : l.length ≤ M
    · rw [List.drop_eq_nil_of_le hsmall, chunkify_nil]
      simp
    · push_neg at hsmall
      have hdrop : l.drop M ≠ [] := by
        intro h
        have h2 := congrArg List.length h
        simp only [List.length_drop, List.length_nil] at h2
        omega
      rw [List.dropLast_cons_of_ne_nil (chunkify_ne_nil M hM _ hdrop)]
      intro p hp
      rcases List.mem_cons.mp hp with h | h
      · subst h
        simp only [List.length_take]
        omega
      · exact ih p h

theorem getLastD_irrel (ps : List (List Nat)) (h : ps ≠ []) (d d2 : List Nat) :
    ps.getLastD d = ps.getLastD d2 := by
  cases ps with
  | nil => exact absurd rfl h
  | cons p ps => rw [List.getLastD_cons, List.getLastD_cons]

/-! ## Basic facts about the step functions -/

theorem chunkWrite_nil (st : State) : chunkWrite st [] = st := by
  obtain ⟨w, cur, par, cs, ps, prev, em, nid⟩ := st
  cases cs <;> cases ps <;> simp [chunkWrite]

theorem chunkWrite_chunkWrite (st : State) (a b : List Nat) :
    chunkWrite (chunkWrite st a) b = chunkWrite st (a ++ b) := by
  obtain ⟨w, cur, par, cs, ps, prev, em, nid⟩ := st
  cases cs <;> cases ps <;> simp [chunkWrite]

theorem chunkWrite_written (st : State) (a : List Nat) (x : Nat) :
    chunkWrite { st with written := x } a = { chunkWrite st a with written := x } := rfl

theorem chunkWrite_written_eq (st : State) (a : List Nat) :
    (chunkWrite st a).written = st.written := rfl

theorem writeChunkF_fuel (Hs Ht : List Nat → List Nat) (M : Nat) (hasF : Bool)
    (hM : M ≠ 0) :
    ∀ f g st chunk, chunk.length < f → chunk.length < g →
      writeChunkF Hs Ht M hasF f st chunk = writeChunkF Hs Ht M hasF g st chunk := by
  intro f
  induction f with
  | zero => intro g st chunk hf; omega
  | succ f ih =>
    intro g st chunk hf hg
    match g with
    | 0 => omega
    | g + 1 =>
      simp only [writeChunkF, if_neg hM]
      cases hb : boundaryStep Hs Ht M hasF st with
      | none => rfl
      | some st1 =>
        simp only [Option.some_bind]
        have hlte : 1 ≤ M - st1.written % M := by
          have := Nat.mod_lt st1.written (Nat.pos_of_ne_zero hM)
          omega
        by_cases hrec : chunk.length > M - st1.written % M
        · simp only [if_pos hrec]
          apply ih
          · simp only [List.length_drop]
            omega
          · simp only [List.length_drop]
            omega
        · simp only [if_neg hrec]

/-- Canonical unfolding of `writeChunk` with the recursion re-entering
`writeChunk` itself. -/
theorem writeChunk_eq (Hs Ht : List Nat → List Nat) (M : Nat) (hasF : Bool)
    (st : State) (chunk : List Nat) (hM : M ≠ 0) :
    writeChunk Hs Ht M hasF st chunk =
      (boundaryStep Hs Ht M hasF st).bind fun st1 =>
        if chunk.length > M - st1.written % M then
          writeChunk Hs Ht M hasF
            { chunkWrite st1 (chunk.take (M - st1.written % M)) with
                written := st1.written + (M - st1.written % M) }
            (chunk.drop (M - st1.written % M))
        else some { chunkWrite st1 chunk with written := st1.written + chunk.length } := by
  show writeChunkF Hs Ht M hasF (chunk.length + 1) st chunk = _
  simp only [writeChunkF, if_neg hM]
  cases hb : boundaryStep Hs Ht M hasF st with
  | none => rfl
  | some st1 =>
    simp only [Option.some_bind]
    have hlte : 1 ≤ M - st1.written % M := by
      have := Nat.mod_lt st1.written (Nat.pos_of_ne_zero hM)
      omega
    by_cases hrec : chunk.length > M - st1.written % M
    · simp only [if_pos hrec]
      exact writeChunkF_fuel Hs Ht M hasF hM _ _ _ _
        (by simp only [List.length_drop]; omega)
        (by simp only [List.length_drop]; omega)
    · simp only [if_neg hrec, List.take_length]

theorem writeChunk_M0 (Hs Ht : List Nat → List Nat) (hasF : Bool)
    (st : State) (chunk : List Nat) : writeChunk Hs Ht 0 hasF st chunk = none := by
  show writeChunkF Hs Ht 0 hasF (chunk.length + 1) st chunk = none
  simp [writeChunkF]

theorem boundaryStep_mid (Hs Ht : List Nat → List Nat) (M : Nat) (hasF : Bool)
    (st : State) (h : st.written % M ≠ 0) :
    boundaryStep Hs Ht M hasF st = some st := by
  simp [boundaryStep, h]

theorem boundaryStep_start (Hs Ht : List Nat → List Nat) (M : Nat) (hasF : Bool)
    (st : State) (h : st.written = 0) :
    boundaryStep Hs Ht M hasF st = initializeNext hasF st := by
  simp [boundaryStep, h]

theorem boundaryStep_edge (Hs Ht : List Nat → List Nat) (M : Nat) (hasF : Bool)
    (st : State) (h : st.written % M = 0) (hpos : 0 < st.written) :
    boundaryStep Hs Ht M hasF st =
      ((releaseFalse Hs Ht st).map Prod.snd).bind (initializeNext hasF) := by
  simp [boundaryStep, h, hpos]

/-- A single-byte write never recurses: the boundary block runs, then exactly
one byte goes to the fan-out writer. -/
theorem writeChunk_single (Hs Ht : List Nat → List Nat) (M : Nat) (hasF : Bool)
    (st : State) (b : Nat) (hM : M ≠ 0) :
    writeChunk Hs Ht M hasF st [b] =
      (boundaryStep Hs Ht M hasF st).bind fun st1 =>
        some { chunkWrite st1 [b] with written := st1.written + 1 } := by
  rw [writeChunk_eq Hs Ht M hasF st [b] hM]
  cases hb : boundaryStep Hs Ht M hasF st with
  | none => rfl
  | some st1 =>
    have hlte : 1 ≤ M - st1.written % M := by
      have := Nat.mod_lt st1.written (Nat.pos_of_ne_zero hM)
      omega
    simp only [Option.some_bind, List.length_cons, List.length_nil]
    rw [if_neg (by omega)]

/-- An empty write still runs the boundary block (and hence can release the
current chunk and open a fresh one), then writes nothing. -/
theorem writeChunk_nil (Hs Ht : List Nat → List Nat) (M : Nat) (hasF : Bool)
    (st : State) (hM : M ≠ 0) :
    writeChunk Hs Ht M hasF st [] =
      (boundaryStep Hs Ht M hasF st).bind fun st1 => some st1 := by
  rw [writeChunk_eq Hs Ht M hasF st [] hM]
  cases hb : boundaryStep Hs Ht M hasF st with
  | none => rfl
  | some st1 =>
    have hlte : 1 ≤ M - st1.written % M := by
      have := Nat.mod_lt st1.written (Nat.pos_of_ne_zero hM)
      omega
    simp only [Option.some_bind, List.length_nil]
    rw [if_neg (by omega), chunkWrite_nil]
    simp

theorem mod_add_small (w d M : Nat) (h : w % M + d < M) : (w + d) % M = w % M + d := by
  conv_lhs => rw [← Nat.div_add_mod w M]
  rw [Nat.add_assoc, Nat.mul_add_mod]
  exact Nat.mod_eq_of_lt h

/-! ## Write granularity does not matter -/

/-- Core composition property of `writeChunk`: writing `p ++ q` in one call is
the same as writing `p` and then `q`, for non-empty `p` and `q` (the boundary
block is lazy, so an *empty* trailing or leading write is observably different:
it can release the current chunk earlier). -/
theorem writeChunk_append_aux (Hs Ht : List Nat → List Nat) (M : Nat) (hasF : Bool)
    (q : List Nat) (hq : q ≠ []) :
    ∀ n st p, p.length ≤ n → p ≠ [] →
      writeChunk Hs Ht M hasF st (p ++ q) =
        (writeChunk Hs Ht M hasF st p).bind fun s => writeChunk Hs Ht M hasF s q := by
  by_cases hM : M = 0
  · intro n st p _ _
    subst hM
    simp [writeChunk_M0]
  intro n
  induction n with
  | zero =>
    intro st p hlen hp
    cases p with
    | nil => exact absurd rfl hp
    | cons a p' => simp at hlen
  | succ n ih =>
    intro st p hlen hp
    have hlq : 1 ≤ q.length := List.length_pos.mpr hq
    have hlp : 1 ≤ p.length := List.length_pos.mpr hp
    rw [writeChunk_eq Hs Ht M hasF st (p ++ q) hM, writeChunk_eq Hs Ht M hasF st p hM,
      Option.bind_assoc]
    cases hb : boundaryStep Hs Ht M hasF st with
    | none => rfl
    | some st1 =>
      simp only [Option.some_bind]
      have hC1 : 1 ≤ M - st1.written % M := by
        have := Nat.mod_lt st1.written (Nat.pos_of_ne_zero hM)
        omega
      by_cases hd : p.length > M - st1.written % M
      · -- `p` alone crosses the boundary: both sides recurse on `p.drop leftToEdge`
        rw [if_pos (by simp only [List.length_append]; omega), if_pos hd,
          List.take_append_of_le_length (by omega),
          List.drop_append_of_le_length (by omega)]
        exact ih _ (p.drop (M - st1.written % M))
          (by simp only [List.length_drop]; omega)
          (by
            intro h
            have h2 := congrArg List.length h
            simp only [List.length_drop, List.length_nil] at h2
            omega)
      · push_neg at hd
        rw [if_neg (show ¬p.length > M - st1.written % M by omega)]
        simp only [Option.some_bind]
        by_cases hc : p.length = M - st1.written % M
        · -- `p` ends exactly on the boundary
          rw [if_pos (by simp only [List.length_append]; omega), ← hc, List.take_left,
            List.drop_left]
        · have hlt : p.length < M - st1.written % M := by omega
          rw [writeChunk_eq Hs Ht M hasF _ q hM]
          have hmod : (st1.written + p.length) % M = st1.written % M + p.length :=
            mod_add_small _ _ _ (by omega)
          rw [boundaryStep_mid Hs Ht M hasF _ (by
            show (st1.written + p.length) % M ≠ 0
            rw [hmod]; omega)]
          simp only [Option.some_bind]
          show _ = if q.length > M - (st1.written + p.length) % M then _ else _
          rw [hmod]
          by_cases ha : p.length + q.length ≤ M - st1.written % M
          · -- everything fits before the boundary
            rw [if_neg (show ¬(p ++ q).length > M - st1.written % M by
                  simp only [List.length_append]; omega),
              if_neg (show ¬q.length > M - (st1.written % M + p.length) by omega)]
            simp only [chunkWrite_written, chunkWrite_chunkWrite, List.length_append]
            rw [Nat.add_assoc]
          · -- the boundary is crossed inside `q`
            push_neg at ha
            rw [if_pos (show (p ++ q).length > M - st1.written % M by
                  simp only [List.length_append]; omega),
              if_pos (show q.length > M - (st1.written % M + p.length) by omega)]
            rw [List.take_append_eq_append_take, List.drop_append_eq_append_drop,
              List.take_of_length_le hd, List.drop_eq_nil_of_le hd, List.nil_append]
            simp only [chunkWrite_written, chunkWrite_chunkWrite]
            have hsub : M - (st1.written % M + p.length) = M - st1.written % M - p.length := by
              omega
            have harith : st1.written + p.length + (M - st1.written % M - p.length)
                = st1.written + (M - st1.written % M) := by omega
            rw [hsub, harith]

/-- `Write` over a concatenation equals the sequence of the two `Write`s. -/
theorem writeChunk_append (Hs Ht : List Nat → List Nat) (M : Nat) (hasF : Bool)
    (st : State) (p q : List Nat) (hp : p ≠ []) (hq : q ≠ []) :
    writeChunk Hs Ht M hasF st (p ++ q) =
      (writeChunk Hs Ht M hasF st p).bind fun s => writeChunk Hs Ht M hasF s q :=
  writeChunk_append_aux Hs Ht M hasF q hq p.length st p (le_refl _) hp

theorem runWrites_nil (Hs Ht : List Nat → List Nat) (M : Nat) (hasF : Bool) (st : State) :
    runWrites Hs Ht M hasF st [] = some st := rfl

theorem runWrites_cons (Hs Ht : List Nat → List Nat) (M : Nat) (hasF : Bool) (st : State)
    (p : List Nat) (ps : List (List Nat)) :
    runWrites Hs Ht M hasF st (p :: ps) =
      (writeChunk Hs Ht M hasF st p).bind fun s => runWrites Hs Ht M hasF s ps := by
  simp [runWrites, List.foldlM]

theorem runWrites_append (Hs Ht : List Nat → List Nat) (M : Nat) (hasF : Bool)
    (ps qs : List (List Nat)) :
    ∀ st, runWrites Hs Ht M hasF st (ps ++ qs) =
      (runWrites Hs Ht M hasF st ps).bind fun s => runWrites Hs Ht M hasF s qs := by
  induction ps with
  | nil => intro st; simp [runWrites_nil]
  | cons p ps ih =>
    intro st
    rw [List.cons_append, runWrites_cons, runWrites_cons, Option.bind_assoc]
    cases writeChunk Hs Ht M hasF st p with
    | none => rfl
    | some s => simp only [Option.some_bind, ih]

theorem flatten_ne_nil (ps : List (List Nat)) (hne : ps ≠ [])
    (hps : ∀ p ∈ ps, p ≠ []) : ps.flatten ≠ [] := by
  cases ps with
  | nil => exact absurd rfl hne
  | cons p ps =>
    have hp : p ≠ [] := hps p (List.mem_cons_self p ps)
    cases p with
    | nil => exact absurd rfl hp
    | cons a p' => simp

/-- A sequence of non-empty writes is the same as one write of the
concatenation. -/
theorem runWrites_eq_flatten (Hs Ht : List Nat → List Nat) (M : Nat) (hasF : Bool)
    (ps : List (List Nat)) (hne : ps ≠ []) (hps : ∀ p ∈ ps, p ≠ []) :
    ∀ st, runWrites Hs Ht M hasF st ps = writeChunk Hs Ht M hasF st ps.flatten := by
  induction ps with
  | nil => exact absurd rfl hne
  | cons p ps ih =>
    intro st
    have hp : p ≠ [] := hps p (List.mem_cons_self p ps)
    rw [runWrites_cons]
    cases hqs : ps with
    | nil => simp [runWrites_nil]
    | cons q qs =>
      rw [← hqs]
      have hps' : ∀ r ∈ ps, r ≠ [] := fun r hr => hps r (List.mem_cons_of_mem p hr)
      have hflat : ps.flatten ≠ [] := flatten_ne_nil ps (by rw [hqs]; simp) hps'
      rw [List.flatten_cons, writeChunk_append Hs Ht M hasF st p ps.flatten hp hflat]
      cases writeChunk Hs Ht M hasF st p with
      | none => rfl
      | some s => simp only [Option.some_bind, ih (by rw [hqs]; simp) hps']

theorem flatten_singletons (l : List Nat) : (l.map fun b => [b]).flatten = l := by
  induction l with
  | nil => rfl
  | cons a l ih => simp [ih]

/-- One write is the same as the corresponding sequence of one-byte writes. -/
theorem writeChunk_eq_singles (Hs Ht : List Nat → List Nat) (M : Nat) (hasF : Bool)
    (st : State) (bytes : List Nat) (hb : bytes ≠ []) :
    writeChunk Hs Ht M hasF st bytes =
      runWrites Hs Ht M hasF st (bytes.map fun b => [b]) := by
  rw [runWrites_eq_flatten Hs Ht M hasF _ (by simpa using hb) (by simp),
    flatten_singletons]

/-! ## Closed-form characterization of a run of non-empty writes -/

/-- Chunk `i` points at chunk `i - 1`; the first chunk has no previous
reference. -/
def prevRef (i : Nat) : Option Nat := if i = 0 then none else some (i - 1)

/-- The header of released chunk `i` with payload `pl`: the template fields of
the logical header, the previous reference, and the finalized checksums. -/
def chunkObj (Hs Ht : List Nat → List Nat) (hdr : RawObject) (i : Nat)
    (pl : List Nat) : RawObject :=
  { fromObject hdr with
      previousID := prevRef i
      payloadChecksum := some (Hs pl)
      payloadHomomorphicHash := some (Ht pl) }

/-- Emission records for consecutive chunks starting at index `i` with the
given payloads (identifiers equal indices under the modelled sink). -/
def chunkRecords (Hs Ht : List Nat → List Nat) (hdr : RawObject) :
    Nat → List (List Nat) → List Emitted
  | _, [] => []
  | i, pl :: pls =>
    { obj := chunkObj Hs Ht hdr i pl, payload := pl, selfId := i } ::
      chunkRecords Hs Ht hdr (i + 1) pls

theorem chunkRecords_append (Hs Ht : List Nat → List Nat) (hdr : RawObject)
    (pls : List (List Nat)) (p : List Nat) :
    ∀ i, chunkRecords Hs Ht hdr i (pls ++ [p]) =
      chunkRecords Hs Ht hdr i pls ++
        [{ obj := chunkObj Hs Ht hdr (i + pls.length) p, payload := p,
           selfId := i + pls.length }] := by
  induction pls with
  | nil => intro i; simp [chunkRecords]
  | cons q pls ih =>
    intro i
    show _ :: chunkRecords Hs Ht hdr (i + 1) (pls ++ [p]) = _
    rw [ih (i + 1)]
    have h : i + 1 + pls.length = i + (pls.length + 1) := by omega
    simp [h, chunkRecords]

theorem chunkRecords_length (Hs Ht : List Nat → List Nat) (hdr : RawObject)
    (pls : List (List Nat)) : ∀ i, (chunkRecords Hs Ht hdr i pls).length = pls.length := by
  induction pls with
  | nil => intro i; rfl
  | cons q pls ih => intro i; simp [chunkRecords, ih]

theorem fromObject_fromObject (o : RawObject) :
    fromObject (fromObject o) = fromObject o := rfl

theorem fromObject_chunkObj (Hs Ht : List Nat → List Nat) (hdr : RawObject)
    (i : Nat) (pl : List Nat) :
    fromObject (chunkObj Hs Ht hdr i pl) = fromObject hdr := rfl

/-- Releasing an object whose header has no embedded parent (every chunk except
the last one released at `Close`). -/
theorem releaseFalse_compute (Hs Ht : List Nat → List Nat) (st : State)
    (feed : List Nat) (hstream : st.currentStream = some feed)
    (hpar : st.current.parent = none)
    (h32 : (Hs feed).length = 32) (h64 : (Ht feed).length = 64) :
    releaseFalse Hs Ht st = some
      ( { self := st.nextId, parent := none },
        { st with
            current := { st.current with
              payloadChecksum := some (Hs feed)
              payloadHomomorphicHash := some (Ht feed) }
            emitted := st.emitted ++
              [{ obj := { st.current with
                    payloadChecksum := some (Hs feed)
                    payloadHomomorphicHash := some (Ht feed) },
                 payload := feed, selfId := st.nextId }]
            previous := st.previous ++ [st.nextId]
            nextId := st.nextId + 1 } ) := by
  simp [releaseFalse, writeHashes, shaChecksumWrite, tzChecksumWrite, closeTarget,
    hstream, hpar, h32, h64]

/-- Appending a byte at an exact boundary opens a fresh (singleton) part. -/
theorem chunkify_concat_boundary (M : Nat) (hM : M ≠ 0) (l : List Nat) (b : Nat)
    (h : l.length % M = 0) :
    chunkify M (l ++ [b]) = chunkify M l ++ [[b]] := by
  induction l using chunkify_induction M hM with
  | hnil =>
    rw [chunkify_nil, List.nil_append]
    rw [chunkify_small M hM [b] (by simp) (by simp; omega)]
    rfl
  | hstep l hl ih =>
    have hMpos : 1 ≤ M := Nat.one_le_iff_ne_zero.mpr hM
    have hlpos : 1 ≤ l.length := List.length_pos.mpr hl
    have hML : M ≤ l.length := by
      rcases Nat.dvd_of_mod_eq_zero h with ⟨q, hq⟩
      rcases q with _ | q
      · omega
      · rw [hq]; exact Nat.le_mul_of_pos_right M (by omega)
    have hdropmod : (l.drop M).length % M = 0 := by
      rcases Nat.dvd_of_mod_eq_zero h with ⟨q, hq⟩
      rcases q with _ | q
      · omega
      · have hmul : M * (q + 1) = M * q + M := by ring
        have hlen2 : (l.drop M).length = M * q := by
          simp only [List.length_drop, hq, hmul]
          omega
        rw [hlen2]
        exact Nat.mul_mod_right M q
    rw [chunkify_cons_eq M hM (l ++ [b]) (by simp),
      List.take_append_of_le_length hML, List.drop_append_of_le_length hML,
      ih hdropmod, chunkify_cons_eq M hM l hl, List.cons_append]

/-- Appending a byte off the boundary extends the last part. -/
theorem chunkify_concat_mid (M : Nat) (hM : M ≠ 0) (l : List Nat) (b : Nat)
    (h : l.length % M ≠ 0) :
    chunkify M (l ++ [b]) =
      (chunkify M l).dropLast ++ [(chunkify M l).getLastD [] ++ [b]] := by
  induction l using chunkify_induction M hM with
  | hnil => simp at h
  | hstep l hl ih =>
    have hMpos : 1 ≤ M := Nat.one_le_iff_ne_zero.mpr hM
    have hlpos : 1 ≤ l.length := List.length_pos.mpr hl
    by_cases hsmall : l.length < M
    · rw [chunkify_small M hM l hl (by omega),
        chunkify_small M hM (l ++ [b]) (by simp) (by simp; omega)]
      rfl
    · have hgt : M < l.length := by
        rcases Nat.lt_or_ge l.length M with hlt | hge
        · omega
        · rcases Nat.eq_or_lt_of_le hge with heq | hlt
          · exfalso; apply h; rw [← heq]; exact Nat.mod_self _
          · exact hlt
      have hdrop : l.drop M ≠ [] := by
        intro hcon
        have h2 := congrArg List.length hcon
        simp only [List.length_drop, List.length_nil] at h2
        omega
      have hdropmod : (l.drop M).length % M ≠ 0 := by
        simp only [List.length_drop]
        intro hcon
        apply h
        have hsplit : l.length = M + (l.length - M) := by omega
        rw [hsplit, Nat.add_mod_left, hcon]
      rw [chunkify_cons_eq M hM (l ++ [b]) (by simp),
        List.take_append_of_le_length (by omega), List.drop_append_of_le_length (by omega),
        ih hdropmod, chunkify_cons_eq M hM l hl,
        List.dropLast_cons_of_ne_nil (chunkify_ne_nil M hM _ hdrop),
        List.getLastD_cons,
        getLastD_irrel (chunkify M (l.drop M)) (chunkify_ne_nil M hM _ hdrop) (l.take M) [],
        List.cons_append]

/-- The split has a single part exactly when the payload fits in one chunk. -/
theorem chunkify_len_le_one (M : Nat) (hM : M ≠ 0) (l : List Nat) :
    (chunkify M l).length ≤ 1 ↔ l.length ≤ M := by
  rw [chunkify_length M hM]
  have hMpos : 1 ≤ M := Nat.one_le_iff_ne_zero.mpr hM
  constructor
  · intro h
    by_contra hcon
    push_neg at hcon
    have h2 : 2 ≤ (l.length + M - 1) / M :=
      (Nat.le_div_iff_mul_le (by omega)).mpr (by omega)
    omega
  · intro h
    have h2 : (l.length + M - 1) / M < 2 := Nat.div_lt_of_lt_mul (by omega)
    omega

theorem range_getLast? (k : Nat) (hk : 1 ≤ k) :
    (List.range k).getLast? = some (k - 1) := by
  have h : List.range k = List.range (k - 1) ++ [k - 1] := by
    conv_lhs => rw [show k = (k - 1) + 1 by omega]
    exact List.range_succ (k - 1)
  rw [h, List.getLast?_concat]

theorem dropLast_concat_getLastD (ps : List (List Nat)) (h : ps ≠ []) :
    ps.dropLast ++ [ps.getLastD []] = ps := by
  induction ps with
  | nil => exact absurd rfl h
  | cons p ps ih =>
    cases hps : ps with
    | nil => rfl
    | cons q qs =>
      rw [← hps]
      have hne : ps ≠ [] := by rw [hps]; simp
      rw [List.dropLast_cons_of_ne_nil hne, List.getLastD_cons,
        getLastD_irrel ps hne p [], List.cons_append, ih hne]

/-- Invariant characterizing the splitter state after streaming `bytes ≠ []`
byte-by-byte from a fresh header. With `parts := chunkify M bytes`: all parts
but the last have been released (emission records with successive identifiers
from the modelled sink), the last part is the open chunk's stream, and the
parent snapshot exists exactly when more than one part exists. `current` may
carry stale checksum fields: from the third chunk on the Go code reuses the
released object's record, and the stale values are overwritten on release. -/
structure Shape (Hs Ht : List Nat → List Nat) (M : Nat) (hdr : RawObject)
    (bytes : List Nat) (st : State) : Prop where
  written : st.written = bytes.length
  emitted : st.emitted = chunkRecords Hs Ht hdr 0 (chunkify M bytes).dropLast
  previous : st.previous = List.range ((chunkify M bytes).length - 1)
  nextId : st.nextId = (chunkify M bytes).length - 1
  current : ∃ c h, st.current =
    { fromObject hdr with
        previousID := prevRef ((chunkify M bytes).length - 1)
        payloadChecksum := c
        payloadHomomorphicHash := h }
  stream : st.currentStream = some ((chunkify M bytes).getLastD [])
  parentObj : st.parent =
    if (chunkify M bytes).length ≤ 1 then none
    else some (chunkObj Hs Ht hdr 0 (bytes.take M))
  parentStream : st.parentStream =
    if (chunkify M bytes).length ≤ 1 then none else some bytes

theorem shape_base (Hs Ht : List Nat → List Nat) (M : Nat) (hdr : RawObject)
    (b : Nat) (hM : M ≠ 0) :
    writeChunk Hs Ht M true (WriteHeader hdr (NewPayloadSizeLimiter M true).st) [b] =
      some { written := 1, current := fromObject hdr, parent := none,
             currentStream := some [b], parentStream := none,
             previous := [], emitted := [], nextId := 0 }
    ∧ Shape Hs Ht M hdr [b]
        { written := 1, current := fromObject hdr, parent := none,
          currentStream := some [b], parentStream := none,
          previous := [], emitted := [], nextId := 0 } := by
  have hck : chunkify M [b] = [[b]] :=
    chunkify_small M hM [b] (by simp) (by simp; omega)
  constructor
  · rw [writeChunk_single Hs Ht M true _ b hM,
      boundaryStep_start Hs Ht M true _ rfl]
    simp [initializeNext, initializeCurrent, WriteHeader, NewPayloadSizeLimiter,
      chunkWrite]
  · refine ⟨rfl, ?_, ?_, ?_, ⟨none, none, ?_⟩, ?_, ?_, ?_⟩ <;>
      simp [hck, chunkRecords, prevRef, fromObject]

/-- `initialize` when exactly one object has been released: snapshot the
current object and hashers as the parent before opening the next chunk. -/
theorem initializeNext_snapshot (s : State) (hs : s.previous.length = 1) :
    initializeNext true s = some
      { s with
          parent := some s.current
          parentStream := s.currentStream
          current := { fromObject s.current with previousID := s.previous.getLast? }
          currentStream := some [] } := by
  have h1 : s.previous.length > 0 := by omega
  simp [initializeNext, initializeCurrent, hs]

/-- `initialize` when at least two objects have been released: only the
previous reference is rewired. -/
theorem initializeNext_chain (s : State) (hs : 2 ≤ s.previous.length) :
    initializeNext true s = some
      { s with
          current := { s.current with previousID := s.previous.getLast? }
          currentStream := some [] } := by
  have h1 : s.previous.length > 0 := by omega
  have h2 : ¬s.previous.length = 1 := by omega
  simp [initializeNext, initializeCurrent, h1, h2]

theorem shape_step (Hs Ht : List Nat → List Nat) (M : Nat) (hdr : RawObject)
    (hM : M ≠ 0) (h32 : ∀ l, (Hs l).length = 32) (h64 : ∀ l, (Ht l).length = 64)
    (bytes : List Nat) (hb : bytes ≠ []) (st : State)
    (hS : Shape Hs Ht M hdr bytes st) (b : Nat) :
    ∃ st', writeChunk Hs Ht M true st [b] = some st' ∧
      Shape Hs Ht M hdr (bytes ++ [b]) st' := by
  obtain ⟨hw, hem, hprev, hnext, ⟨c, h, hcur⟩, hstr, hpar, hpstr⟩ := hS
  have hkpos : 1 ≤ (chunkify M bytes).length :=
    List.length_pos.mpr (chunkify_ne_nil M hM bytes hb)
  have hLpos : 1 ≤ bytes.length := List.length_pos.mpr hb
  rw [writeChunk_single Hs Ht M true st b hM]
  by_cases hmod : bytes.length % M = 0
  case neg =>
    -- mid-chunk byte: the boundary block is a no-op and the byte extends the
    -- open chunk
    rw [boundaryStep_mid Hs Ht M true st (by rw [hw]; exact hmod)]
    simp only [Option.some_bind]
    refine ⟨_, rfl, ?_⟩
    have hcc := chunkify_concat_mid M hM bytes b hmod
    have hk' : (chunkify M (bytes ++ [b])).length = (chunkify M bytes).length := by
      rw [hcc]
      simp only [List.length_append, List.length_dropLast, List.length_cons,
        List.length_nil]
      omega
    refine ⟨?_, ?_, ?_, ?_, ⟨c, h, ?_⟩, ?_, ?_, ?_⟩
    · show st.written + 1 = (bytes ++ [b]).length
      rw [hw]; simp
    · show st.emitted = _
      rw [hem, hcc, List.dropLast_concat]
    · show st.previous = _
      rw [hprev, hk']
    · show st.nextId = _
      rw [hnext, hk']
    · show st.current = _
      rw [hcur, hk']
    · show st.currentStream.map (· ++ [b]) = _
      rw [hstr, hcc, List.getLastD_concat]
      rfl
    · show st.parent = _
      rw [hpar, hk']
      by_cases hk1 : (chunkify M bytes).length ≤ 1
      · rw [if_pos hk1, if_pos hk1]
      · rw [if_neg hk1, if_neg hk1]
        have hMlt : M < bytes.length := by
          by_contra hcon
          push_neg at hcon
          exact hk1 ((chunkify_len_le_one M hM bytes).mpr hcon)
        rw [List.take_append_of_le_length (by omega)]
    · show st.parentStream.map (· ++ [b]) = _
      rw [hpstr, hk']
      by_cases hk1 : (chunkify M bytes).length ≤ 1
      · rw [if_pos hk1, if_pos hk1]; rfl
      · rw [if_neg hk1, if_neg hk1]; rfl
  case pos =>
    -- the previous byte landed exactly on the boundary: release the full
    -- chunk, open a fresh one, then write the byte into it
    have hpnone : st.current.parent = none := by rw [hcur]; rfl
    rw [boundaryStep_edge Hs Ht M true st (by rw [hw]; exact hmod) (by rw [hw]; omega),
      releaseFalse_compute Hs Ht st ((chunkify M bytes).getLastD []) hstr hpnone
        (h32 _) (h64 _)]
    simp only [Option.map_some', Option.some_bind]
    have hcc := chunkify_concat_boundary M hM bytes b hmod
    have hk' : (chunkify M (bytes ++ [b])).length = (chunkify M bytes).length + 1 := by
      rw [hcc]; simp
    have hsplit := dropLast_concat_getLastD (chunkify M bytes)
      (chunkify_ne_nil M hM bytes hb)
    have hdll : (chunkify M bytes).dropLast.length = (chunkify M bytes).length - 1 := by
      simp [List.length_dropLast]
    have hdl' : (chunkify M (bytes ++ [b])).dropLast = chunkify M bytes := by
      rw [hcc, List.dropLast_concat]
    have hlast' : (chunkify M (bytes ++ [b])).getLastD [] = [b] := by
      rw [hcc, List.getLastD_concat]
    by_cases hk1 : (chunkify M bytes).length = 1
    · -- the released chunk was the first one: snapshot it as the parent
      have hLM : bytes.length ≤ M := (chunkify_len_le_one M hM bytes).mp (by omega)
      have hLeqM : bytes.length = M := by
        rcases Nat.lt_or_ge bytes.length M with hlt | hge
        · exfalso
          rw [Nat.mod_eq_of_lt hlt] at hmod
          omega
        · omega
      have hparts : chunkify M bytes = [bytes] := chunkify_small M hM bytes hb hLM
      have hfeed : (chunkify M bytes).getLastD [] = bytes := by rw [hparts]; rfl
      have hprev0 : st.previous = [] := by
        rw [hprev, hk1]
        rfl
      rw [initializeNext_snapshot _ (by simp [hprev0])]
      simp only [Option.some_bind]
      refine ⟨_, rfl, ?_⟩
      refine ⟨?_, ?_, ?_, ?_, ⟨none, none, ?_⟩, ?_, ?_, ?_⟩
      · show st.written + 1 = (bytes ++ [b]).length
        rw [hw]; simp
      · show st.emitted ++ _ = _
        rw [hdl', hem, hparts, hcur, hk1]
        simp [chunkRecords, chunkObj, prevRef, hfeed, hnext, hk1]
      · show st.previous ++ [st.nextId] = _
        rw [hprev0, hnext, hk1, hk', hk1]
        decide
      · show st.nextId + 1 = _
        rw [hnext, hk1, hk', hk1]
      · show { fromObject _ with previousID := (st.previous ++ [st.nextId]).getLast? } = _
        rw [List.getLast?_concat, hnext, hk1, hcur, hk', hk1]
        simp [fromObject, prevRef]
      · show (some []).map (· ++ [b]) = _
        rw [hlast']
        rfl
      · show some _ = _
        rw [if_neg (by omega), hcur, hk1, hfeed]
        simp only [chunkObj, prevRef, List.take_append_of_le_length (Nat.le_of_eq hLeqM.symm),
          List.take_of_length_le (Nat.le_of_eq hLeqM)]
      · show (st.currentStream).map (· ++ [b]) = _
        rw [if_neg (by omega), hstr, hfeed]
        rfl
    · -- at least one chunk had already been released: the parent snapshot and
      -- accumulators are already in place
      have hk2 : 2 ≤ (chunkify M bytes).length := by omega
      have hMlt : M < bytes.length := by
        by_contra hcon
        push_neg at hcon
        have := (chunkify_len_le_one M hM bytes).mpr hcon
        omega
      have hprevlen : st.previous.length = (chunkify M bytes).length - 1 := by
        rw [hprev, List.length_range]
      rw [initializeNext_chain _ (by simp [hprevlen]; omega)]
      simp only [Option.some_bind]
      refine ⟨_, rfl, ?_⟩
      have hemit : st.emitted ++
          [{ obj := { st.current with
                payloadChecksum := some (Hs ((chunkify M bytes).getLastD []))
                payloadHomomorphicHash := some (Ht ((chunkify M bytes).getLastD [])) },
             payload := (chunkify M bytes).getLastD [], selfId := st.nextId }] =
          chunkRecords Hs Ht hdr 0 (chunkify M bytes) := by
        conv_rhs => rw [← hsplit]
        rw [chunkRecords_append, hem, hcur, hnext, hdll]
        simp only [Nat.zero_add]
        simp [chunkObj]
      refine ⟨?_, ?_, ?_, ?_,
        ⟨some (Hs ((chunkify M bytes).getLastD [])),
         some (Ht ((chunkify M bytes).getLastD [])), ?_⟩, ?_, ?_, ?_⟩
      · show st.written + 1 = (bytes ++ [b]).length
        rw [hw]; simp
      · show st.emitted ++ _ = _
        rw [hdl', hemit]
      · show st.previous ++ [st.nextId] = _
        rw [hprev, hnext, hk']
        conv_rhs => rw [show (chunkify M bytes).length + 1 - 1
          = ((chunkify M bytes).length - 1) + 1 by omega]
        rw [List.range_succ]
      · show st.nextId + 1 = _
        rw [hnext, hk']
        omega
      · show ({ { st.current with
            payloadChecksum := some (Hs ((chunkify M bytes).getLastD []))
            payloadHomomorphicHash := some (Ht ((chunkify M bytes).getLastD [])) } with
            previousID := (st.previous ++ [st.nextId]).getLast? } : RawObject) = _
        rw [List.getLast?_concat, hnext, hcur, hk']
        simp [prevRef, chunkify_ne_nil M hM bytes hb,
          show (chunkify M bytes).length + 1 - 1 = (chunkify M bytes).length by omega]
      · show (some []).map (· ++ [b]) = _
        rw [hlast']
        rfl
      · show st.parent = _
        rw [hpar, hk', if_neg (by omega), if_neg (by omega),
          List.take_append_of_le_length (by omega)]
      · show st.parentStream.map (· ++ [b]) = _
        rw [hpstr, hk', if_neg (by omega), if_neg (by omega)]
        rfl

/-- After a single `Write` of any non-empty payload from a fresh splitter, the
state is exactly characterized by `Shape`. -/
theorem shape_run (Hs Ht : List Nat → List Nat) (M : Nat) (hdr : RawObject)
    (hM : M ≠ 0) (h32 : ∀ l, (Hs l).length = 32) (h64 : ∀ l, (Ht l).length = 64)
    (bytes : List Nat) (hb : bytes ≠ []) :
    ∃ st, writeChunk Hs Ht M true (WriteHeader hdr (NewPayloadSizeLimiter M true).st) bytes
        = some st ∧ Shape Hs Ht M hdr bytes st := by
  induction bytes using List.reverseRecOn with
  | nil => exact absurd rfl hb
  | append_singleton l b ih =>
    cases hl : l with
    | nil =>
      obtain ⟨heq, hsh⟩ := shape_base Hs Ht M hdr b hM
      exact ⟨_, heq, hsh⟩
    | cons x xs =>
      rw [← hl]
      have hlne : l ≠ [] := by rw [hl]; simp
      obtain ⟨st, hrun, hsh⟩ := ih hlne
      obtain ⟨st', hstep, hsh'⟩ := shape_step Hs Ht M hdr hM h32 h64 l hlne st hsh b
      refine ⟨st', ?_, hsh'⟩
      rw [writeChunk_eq_singles Hs Ht M true _ (l ++ [b]) (by simp), List.map_append,
        runWrites_append]
      rw [writeChunk_eq_singles Hs Ht M true _ l hlne] at hrun
      rw [hrun]
      simp only [Option.some_bind, List.map_cons, List.map_nil]
      rw [runWrites_cons]
      rw [hstep]
      rfl

/-- Releasing an object whose header embeds a parent that has no identifier
yet (the last chunk released by `Close`): the modelled sink assigns the parent
its identifier. -/
theorem releaseFalse_computeParent (Hs Ht : List Nat → List Nat) (st : State)
    (feed : List Nat) (pm : ObjMeta) (hstream : st.currentStream = some feed)
    (hpar : st.current.parent = some pm) (hid : pm.id = none)
    (h32 : (Hs feed).length = 32) (h64 : (Ht feed).length = 64) :
    releaseFalse Hs Ht st = some
      ( { self := st.nextId, parent := some (st.nextId + 1) },
        { st with
            current := { st.current with
              payloadChecksum := some (Hs feed)
              payloadHomomorphicHash := some (Ht feed)
              parent := some { pm with id := some (st.nextId + 1) } }
            emitted := st.emitted ++
              [{ obj := { st.current with
                    payloadChecksum := some (Hs feed)
                    payloadHomomorphicHash := some (Ht feed)
                    parent := some { pm with id := some (st.nextId + 1) } },
                 payload := feed, selfId := st.nextId }]
            previous := st.previous ++ [st.nextId]
            nextId := st.nextId + 2 } ) := by
  simp [releaseFalse, writeHashes, shaChecksumWrite, tzChecksumWrite, closeTarget,
    hstream, hpar, hid, h32, h64]

/-- Releasing an object whose header embeds a parent that already carries an
identifier (the linking object): no fresh parent identifier is assigned. -/
theorem releaseFalse_computeParentId (Hs Ht : List Nat → List Nat) (st : State)
    (feed : List Nat) (pm : ObjMeta) (pid : Nat) (hstream : st.currentStream = some feed)
    (hpar : st.current.parent = some pm) (hid : pm.id = some pid)
    (h32 : (Hs feed).length = 32) (h64 : (Ht feed).length = 64) :
    releaseFalse Hs Ht st = some
      ( { self := st.nextId, parent := some pid },
        { st with
            current := { st.current with
              payloadChecksum := some (Hs feed)
              payloadHomomorphicHash := some (Ht feed) }
            emitted := st.emitted ++
              [{ obj := { st.current with
                    payloadChecksum := some (Hs feed)
                    payloadHomomorphicHash := some (Ht feed) },
                 payload := feed, selfId := st.nextId }]
            previous := st.previous ++ [st.nextId]
            nextId := st.nextId + 1 } ) := by
  simp [releaseFalse, writeHashes, shaChecksumWrite, tzChecksumWrite, closeTarget,
    hstream, hpar, hid, h32, h64]

theorem initializeCurrent_true (s : State) :
    initializeCurrent true s = some { s with currentStream := some [] } := rfl

/-- `Close` after a single-part stream: the sole chunk is released, no parent
or linking object is produced, and the chunk's identifiers are returned. -/
theorem closeSingle (Hs Ht : List Nat → List Nat) (M : Nat) (hdr : RawObject)
    (bytes : List Nat) (st : State) (hM : M ≠ 0)
    (h32 : ∀ l, (Hs l).length = 32) (h64 : ∀ l, (Ht l).length = 64)
    (hS : Shape Hs Ht M hdr bytes st) (hb : bytes ≠ [])
    (hk1 : (chunkify M bytes).length = 1) :
    releaseTrue Hs Ht true st = some
      ( { self := 0, parent := none },
        { written := bytes.length
          current := chunkObj Hs Ht hdr 0 bytes
          parent := none
          currentStream := some bytes
          parentStream := none
          previous := [0]
          emitted := [{ obj := chunkObj Hs Ht hdr 0 bytes, payload := bytes, selfId := 0 }]
          nextId := 1 } ) := by
  obtain ⟨hw, hem, hprev, hnext, ⟨c, h, hcur⟩, hstr, hpar, hpstr⟩ := hS
  have hLM : bytes.length ≤ M := (chunkify_len_le_one M hM bytes).mp (by omega)
  have hparts : chunkify M bytes = [bytes] := chunkify_small M hM bytes hb hLM
  have hfeed : (chunkify M bytes).getLastD [] = bytes := by rw [hparts]; rfl
  have hprev0 : st.previous = [] := by rw [hprev, hk1]; rfl
  have hpnone : st.current.parent = none := by rw [hcur]; rfl
  rw [releaseTrue]
  rw [hprev0]
  simp only [List.length_nil, gt_iff_lt, Nat.lt_irrefl, if_false, Option.some_bind]
  rw [releaseFalse_compute Hs Ht st bytes (by rw [hstr, hfeed]) hpnone (h32 _) (h64 _)]
  simp only [Option.some_bind, if_neg (show ¬(0:Nat) < 0 by omega)]
  rw [hnext, hk1, hcur, hk1, hem, hparts, hprev0, hw, hstr, hfeed,
    hpar, hpstr, if_pos (by rw [hk1]), if_pos (by rw [hk1])]
  simp [chunkObj, prevRef, chunkRecords]

/-- `Close` after a multi-part stream: the last chunk is released carrying the
parent header (whose checksums are still the *first* chunk's, since the parent
hashers' checksum writers store into `current`, not into the parent), the sink
assigns the parent its identifier, and the linking object is generated and
released; the returned identifiers are those of the last chunk, not of the
linking object. -/
theorem closeMulti (Hs Ht : List Nat → List Nat) (M : Nat) (hdr : RawObject)
    (bytes : List Nat) (st : State) (hM : M ≠ 0)
    (h32 : ∀ l, (Hs l).length = 32) (h64 : ∀ l, (Ht l).length = 64)
    (hS : Shape Hs Ht M hdr bytes st) (hb : bytes ≠ [])
    (hk2 : 2 ≤ (chunkify M bytes).length) :
    releaseTrue Hs Ht true st = some
      ( { self := (chunkify M bytes).length - 1, parent := some (chunkify M bytes).length },
        { written := bytes.length
          current := { fromObject hdr with
            children := List.range (chunkify M bytes).length
            parent := some { ObjMeta.empty with id := some (chunkify M bytes).length }
            payloadChecksum := some (Hs [])
            payloadHomomorphicHash := some (Ht []) }
          parent := some { chunkObj Hs Ht hdr 0 (bytes.take M) with
            payloadSize := some bytes.length }
          currentStream := some []
          parentStream := some bytes
          previous := List.range (chunkify M bytes).length ++ [(chunkify M bytes).length + 1]
          emitted := chunkRecords Hs Ht hdr 0 (chunkify M bytes).dropLast ++
            [{ obj := { chunkObj Hs Ht hdr ((chunkify M bytes).length - 1)
                          ((chunkify M bytes).getLastD []) with
                  parent := some { (chunkObj Hs Ht hdr 0 (bytes.take M)).toObjMeta with
                    payloadSize := some bytes.length
                    id := some (chunkify M bytes).length } },
               payload := (chunkify M bytes).getLastD []
               selfId := (chunkify M bytes).length - 1 }] ++
            [{ obj := { fromObject hdr with
                  children := List.range (chunkify M bytes).length
                  parent := some { ObjMeta.empty with id := some (chunkify M bytes).length }
                  payloadChecksum := some (Hs [])
                  payloadHomomorphicHash := some (Ht []) }
               payload := []
               selfId := (chunkify M bytes).length + 1 }]
          nextId := (chunkify M bytes).length + 2 } ) := by
  obtain ⟨hw, hem, hprev, hnext, ⟨c, h, hcur⟩, hstr, hpar, hpstr⟩ := hS
  have hkgt : ¬(chunkify M bytes).length ≤ 1 := by omega
  have hprevlen : st.previous.length = (chunkify M bytes).length - 1 := by
    rw [hprev, List.length_range]
  have hwp : st.previous.length > 0 := by omega
  rw [releaseTrue]
  simp only [if_pos hwp]
  rw [hpstr, if_neg hkgt]
  simp only [writeHashes, shaChecksumWrite, tzChecksumWrite, h32, h64, if_pos,
    Option.some_bind, if_true]
  rw [hpar, if_neg hkgt]
  simp only [Option.some_bind]
  rw [releaseFalse_computeParent Hs Ht _ ((chunkify M bytes).getLastD []) _
    (by exact hstr) (by rfl) (by rfl) (h32 _) (h64 _)]
  simp only [Option.some_bind, initializeLinking, initializeCurrent_true]
  rw [releaseFalse_computeParentId Hs Ht _ [] _ (st.nextId + 1)
    (by rfl) (by rfl) (by rfl) (h32 _) (h64 _)]
  simp only [Option.some_bind, Option.some.injEq, Prod.mk.injEq]
  have e1 : st.nextId + 1 = (chunkify M bytes).length := by rw [hnext]; omega
  have e2 : st.nextId + 2 = (chunkify M bytes).length + 1 := by rw [hnext]; omega
  have e3 : st.nextId + 2 + 1 = (chunkify M bytes).length + 2 := by rw [hnext]; omega
  have hr1 : st.previous ++ [st.nextId] = List.range (chunkify M bytes).length := by
    rw [hprev, hnext]
    conv_rhs => rw [show (chunkify M bytes).length = ((chunkify M bytes).length - 1) + 1
      by omega]
    rw [List.range_succ]
  refine ⟨?_, ?_⟩
  · rw [hnext]
    simp [e1]
    omega
  · simp [fromObject, chunkObj, hcur, hw, hem, hstr, e1, e2, e3, hr1]
    exact ⟨by rw [hpstr, if_neg hkgt], hnext⟩

/-! ## Helper facts about emission records -/

theorem chunkObj_children (Hs Ht : List Nat → List Nat) (hdr : RawObject) (i : Nat)
    (pl : List Nat) : (chunkObj Hs Ht hdr i pl).children = [] := rfl

theorem chunkObj_parent (Hs Ht : List Nat → List Nat) (hdr : RawObject) (i : Nat)
    (pl : List Nat) : (chunkObj Hs Ht hdr i pl).parent = none := rfl

theorem chunkRecords_filter (Hs Ht : List Nat → List Nat) (hdr : RawObject)
    (pls : List (List Nat)) : ∀ i,
    (chunkRecords Hs Ht hdr i pls).filter (fun e => e.obj.children.isEmpty)
      = chunkRecords Hs Ht hdr i pls := by
  induction pls with
  | nil => intro i; rfl
  | cons q pls ih =>
    intro i
    simp only [chunkRecords, List.filter_cons]
    rw [if_pos (by simp [chunkObj_children]), ih]

theorem chunkRecords_map_payload (Hs Ht : List Nat → List Nat) (hdr : RawObject)
    (pls : List (List Nat)) : ∀ i,
    (chunkRecords Hs Ht hdr i pls).map Emitted.payload = pls := by
  induction pls with
  | nil => intro i; rfl
  | cons q pls ih =>
    intro i
    simp only [chunkRecords, List.map_cons, ih]

theorem chunkRecords_map_selfId (Hs Ht : List Nat → List Nat) (hdr : RawObject)
    (pls : List (List Nat)) : ∀ i,
    (chunkRecords Hs Ht hdr i pls).map Emitted.selfId = List.range' i pls.length := by
  induction pls with
  | nil => intro i; rfl
  | cons q pls ih =>
    intro i
    simp only [chunkRecords, List.map_cons, ih, List.length_cons, List.range'_succ]

theorem chunkRecords_getD (Hs Ht : List Nat → List Nat) (hdr : RawObject)
    (d : Emitted) (pls : List (List Nat)) : ∀ i n, i < pls.length →
    (chunkRecords Hs Ht hdr n pls).getD i d =
      { obj := chunkObj Hs Ht hdr (n + i) (pls.getD i [])
        payload := pls.getD i []
        selfId := n + i } := by
  induction pls with
  | nil => intro i n hi; simp at hi
  | cons q pls ih =>
    intro i n hi
    cases i with
    | zero => simp [chunkRecords]
    | succ i =>
      simp only [chunkRecords, List.getD_cons_succ]
      rw [ih i (n + 1) (by simpa using hi)]
      have h1 : n + 1 + i = n + (i + 1) := by omega
      rw [h1]

/-- The lengths of the parts: everything but the last part is full. -/
theorem flatten_of_const_length (M : Nat) :
    ∀ pls : List (List Nat), (∀ p ∈ pls, p.length = M) →
      pls.flatten.length = M * pls.length := by
  intro pls
  induction pls with
  | nil => intro _; simp
  | cons q pls ih =>
    intro hall
    simp only [List.flatten_cons, List.length_append, List.length_cons,
      hall q (List.mem_cons_self q pls), ih (fun p hp => hall p (List.mem_cons_of_mem q hp))]
    ring

theorem chunkify_getLast_len (M : Nat) (hM : M ≠ 0) (l : List Nat) (hl : l ≠ []) :
    ((chunkify M l).getLastD []).length
      = l.length - M * ((chunkify M l).length - 1) := by
  have hsplit := dropLast_concat_getLastD (chunkify M l) (chunkify_ne_nil M hM l hl)
  have hj : (chunkify M l).dropLast.flatten.length
      = M * (chunkify M l).dropLast.length :=
    flatten_of_const_length M _ (chunkify_dropLast_len M hM l)
  have hfl : (chunkify M l).flatten = l := chunkify_flatten M hM l
  have hlen : l.length = (chunkify M l).dropLast.flatten.length
      + ((chunkify M l).getLastD []).length := by
    conv_lhs => rw [← hfl, ← hsplit]
    simp
  have hdll : (chunkify M l).dropLast.length = (chunkify M l).length - 1 := by
    simp [List.length_dropLast]
  rw [hdll] at hj
  omega

/-! ## Empty writes -/

/-- An empty `Write` on a fresh splitter only initializes the first chunk. -/
theorem writeChunk_nil_start (Hs Ht : List Nat → List Nat) (M : Nat) (hM : M ≠ 0)
    (st : State) (hw0 : st.written = 0) (hp0 : st.previous = []) :
    writeChunk Hs Ht M true st [] = some { st with currentStream := some [] } := by
  rw [writeChunk_nil Hs Ht M true st hM, boundaryStep_start Hs Ht M true st hw0]
  simp [initializeNext, initializeCurrent, hp0]

/-- Any number of empty `Write`s on a fresh splitter leaves only the
initialized first chunk. -/
theorem emptyWrites_run (Hs Ht : List Nat → List Nat) (M : Nat) (hdr : RawObject)
    (hM : M ≠ 0) :
    ∀ n, 1 ≤ n →
      runWrites Hs Ht M true (WriteHeader hdr (NewPayloadSizeLimiter M true).st)
        (List.replicate n []) =
      some { written := 0, current := fromObject hdr, parent := none,
             currentStream := some [], parentStream := none,
             previous := [], emitted := [], nextId := 0 } := by
  have hstable : ∀ n,
      runWrites Hs Ht M true
        { written := 0, current := fromObject hdr, parent := none,
          currentStream := some [], parentStream := none,
          previous := [], emitted := [], nextId := 0 }
        (List.replicate n []) =
      some { written := 0, current := fromObject hdr, parent := none,
             currentStream := some [], parentStream := none,
             previous := [], emitted := [], nextId := 0 } := by
    intro n
    induction n with
    | zero => rfl
    | succ n ih =>
      rw [List.replicate_succ, runWrites_cons, writeChunk_nil_start Hs Ht M hM _ rfl rfl]
      simpa using ih
  intro n hn
  cases n with
  | zero => omega
  | succ n =>
    rw [List.replicate_succ, runWrites_cons,
      writeChunk_nil_start Hs Ht M hM _ rfl rfl]
    simpa [WriteHeader, NewPayloadSizeLimiter] using hstable n

/-- `Close` directly after `WriteHeader` (no `Write` at all) dereferences the
nil sink and panics. -/
theorem close_without_write (Hs Ht : List Nat → List Nat) (M : Nat)
    (hdr : RawObject) (hasF : Bool) :
    releaseTrue Hs Ht hasF (WriteHeader hdr (NewPayloadSizeLimiter M hasF).st) = none := by
  simp [releaseTrue, releaseFalse, WriteHeader, NewPayloadSizeLimiter]

/-- `Close` on any state that already has released chunks: the current object
is released carrying the parent header, then the linking object is generated
and released; the returned identifiers are those of the current object. -/
theorem closeWithParent (Hs Ht : List Nat → List Nat) (st : State)
    (feed pbytes : List Nat) (P : RawObject)
    (h32 : ∀ l, (Hs l).length = 32) (h64 : ∀ l, (Ht l).length = 64)
    (hwp : st.previous.length > 0)
    (hstr : st.currentStream = some feed)
    (hpstr : st.parentStream = some pbytes)
    (hpar : st.parent = some P)
    (hpnone : st.current.parent = none)
    (hPid : P.id = none) :
    releaseTrue Hs Ht true st = some
      ( { self := st.nextId, parent := some (st.nextId + 1) },
        { written := st.written
          current := { fromObject st.current with
            children := st.previous ++ [st.nextId]
            parent := some { ObjMeta.empty with id := some (st.nextId + 1) }
            payloadChecksum := some (Hs [])
            payloadHomomorphicHash := some (Ht []) }
          parent := some { P with payloadSize := some st.written }
          currentStream := some []
          parentStream := some pbytes
          previous := st.previous ++ [st.nextId] ++ [st.nextId + 2]
          emitted := st.emitted ++
            [{ obj := { st.current with
                  payloadChecksum := some (Hs feed)
                  payloadHomomorphicHash := some (Ht feed)
                  parent := some { { P with payloadSize := some st.written }.toObjMeta with
                    id := some (st.nextId + 1) } }
               payload := feed, selfId := st.nextId }] ++
            [{ obj := { fromObject st.current with
                  children := st.previous ++ [st.nextId]
                  parent := some { ObjMeta.empty with id := some (st.nextId + 1) }
                  payloadChecksum := some (Hs [])
                  payloadHomomorphicHash := some (Ht []) }
               payload := [], selfId := st.nextId + 2 }]
          nextId := st.nextId + 2 + 1 } ) := by
  rw [releaseTrue]
  simp only [if_pos hwp]
  rw [hpstr]
  simp only [writeHashes, shaChecksumWrite, tzChecksumWrite, h32, h64, if_pos,
    Option.some_bind, if_true]
  rw [hpar]
  simp only [Option.some_bind]
  rw [releaseFalse_computeParent Hs Ht _ feed _ (by exact hstr) (by rfl)
    (by exact hPid) (h32 _) (h64 _)]
  simp only [Option.some_bind, initializeLinking, initializeCurrent_true]
  rw [releaseFalse_computeParentId Hs Ht _ [] _ (st.nextId + 1)
    (by rfl) (by rfl) (by rfl) (h32 _) (h64 _)]
  simp [fromObject, hpstr]

/-- An empty `Write` issued when the byte count sits exactly on a positive
multiple of the maximum size: the boundary block releases the full open chunk
and opens a fresh, empty one. -/
theorem emptyWrite_boundary (Hs Ht : List Nat → List Nat) (M : Nat) (hdr : RawObject)
    (bytes : List Nat) (st : State) (hM : M ≠ 0)
    (h32 : ∀ l, (Hs l).length = 32) (h64 : ∀ l, (Ht l).length = 64)
    (hS : Shape Hs Ht M hdr bytes st) (hb : bytes ≠ [])
    (hmod : bytes.length % M = 0) :
    ∃ c2 h2, writeChunk Hs Ht M true st [] = some
      { written := bytes.length
        current := { fromObject hdr with
          previousID := some ((chunkify M bytes).length - 1)
          payloadChecksum := c2
          payloadHomomorphicHash := h2 }
        parent := some (chunkObj Hs Ht hdr 0 (bytes.take M))
        currentStream := some []
        parentStream := some bytes
        previous := List.range (chunkify M bytes).length
        emitted := chunkRecords Hs Ht hdr 0 (chunkify M bytes)
        nextId := (chunkify M bytes).length } := by
  obtain ⟨hw, hem, hprev, hnext, ⟨c, h, hcur⟩, hstr, hpar, hpstr⟩ := hS
  have hkpos : 1 ≤ (chunkify M bytes).length :=
    List.length_pos.mpr (chunkify_ne_nil M hM bytes hb)
  have hLpos : 1 ≤ bytes.length := List.length_pos.mpr hb
  have hpnone : st.current.parent = none := by rw [hcur]; rfl
  have hsplit := dropLast_concat_getLastD (chunkify M bytes)
    (chunkify_ne_nil M hM bytes hb)
  have hdll : (chunkify M bytes).dropLast.length = (chunkify M bytes).length - 1 := by
    simp [List.length_dropLast]
  rw [writeChunk_nil Hs Ht M true st hM,
    boundaryStep_edge Hs Ht M true st (by rw [hw]; exact hmod) (by rw [hw]; omega),
    releaseFalse_compute Hs Ht st ((chunkify M bytes).getLastD []) hstr hpnone
      (h32 _) (h64 _)]
  simp only [Option.map_some', Option.some_bind]
  have hemit : st.emitted ++
      [{ obj := { st.current with
            payloadChecksum := some (Hs ((chunkify M bytes).getLastD []))
            payloadHomomorphicHash := some (Ht ((chunkify M bytes).getLastD [])) },
         payload := (chunkify M bytes).getLastD [], selfId := st.nextId }] =
      chunkRecords Hs Ht hdr 0 (chunkify M bytes) := by
    conv_rhs => rw [← hsplit]
    rw [chunkRecords_append, hem, hcur, hnext, hdll]
    simp only [Nat.zero_add]
    simp [chunkObj]
  by_cases hk1 : (chunkify M bytes).length = 1
  · -- the released chunk was the first one: snapshot it as the parent
    have hLM : bytes.length ≤ M := (chunkify_len_le_one M hM bytes).mp (by omega)
    have hLeqM : bytes.length = M := by
      rcases Nat.lt_or_ge bytes.length M with hlt | hge
      · exfalso
        rw [Nat.mod_eq_of_lt hlt] at hmod
        omega
      · omega
    have hparts : chunkify M bytes = [bytes] := chunkify_small M hM bytes hb hLM
    have hfeed : (chunkify M bytes).getLastD [] = bytes := by rw [hparts]; rfl
    have hprev0 : st.previous = [] := by rw [hprev, hk1]; rfl
    rw [initializeNext_snapshot _ (by simp [hprev0])]
    refine ⟨none, none, ?_⟩
    simp only [Option.some_bind, Option.some.injEq]
    rw [State.mk.injEq]
    refine ⟨hw, ?_, ?_, rfl, by rw [hstr, hfeed], ?_, ?_, ?_⟩
    · rw [List.getLast?_concat, hnext, hk1, hcur, hk1]
      simp [fromObject]
    · rw [hcur, hk1, hfeed]
      simp only [chunkObj, prevRef, List.take_of_length_le (Nat.le_of_eq hLeqM)]
    · rw [hprev0, hnext, hk1]
      decide
    · rw [hemit]
    · rw [hnext, hk1]
  · have hk2 : 2 ≤ (chunkify M bytes).length := by omega
    have hprevlen : st.previous.length = (chunkify M bytes).length - 1 := by
      rw [hprev, List.length_range]
    rw [initializeNext_chain _ (by simp [hprevlen]; omega)]
    refine ⟨some (Hs ((chunkify M bytes).getLastD [])),
            some (Ht ((chunkify M bytes).getLastD [])), ?_⟩
    simp only [Option.some_bind, Option.some.injEq]
    rw [State.mk.injEq]
    refine ⟨hw, ?_, ?_, rfl, by rw [hpstr, if_neg (by omega)], ?_, ?_, ?_⟩
    · rw [List.getLast?_concat, hnext, hcur]
    · rw [hpar, if_neg (by omega)]
    · rw [hprev, hnext]
      conv_rhs => rw [show (chunkify M bytes).length
        = ((chunkify M bytes).length - 1) + 1 by omega]
      rw [List.range_succ]
    · rw [hemit]
    · rw [hnext]
      omega

/-! ## End-to-end runs -/

theorem run_shape (Hs Ht : List Nat → List Nat) (M : Nat) (hdr : RawObject)
    (ps : List (List Nat)) (hM : M ≠ 0)
    (h32 : ∀ l, (Hs l).length = 32) (h64 : ∀ l, (Ht l).length = 64)
    (hne : ps ≠ []) (hps : ∀ p ∈ ps, p ≠ []) :
    ∃ st, runWrites Hs Ht M true (WriteHeader hdr (NewPayloadSizeLimiter M true).st) ps
        = some st ∧ Shape Hs Ht M hdr ps.flatten st := by
  rw [runWrites_eq_flatten Hs Ht M true ps hne hps]
  exact shape_run Hs Ht M hdr hM h32 h64 ps.flatten (flatten_ne_nil ps hne hps)

/-- A run of non-empty writes fitting in one chunk, closed. -/
theorem closeRun_single (Hs Ht : List Nat → List Nat) (M : Nat) (hdr : RawObject)
    (ps : List (List Nat)) (hM : M ≠ 0)
    (h32 : ∀ l, (Hs l).length = 32) (h64 : ∀ l, (Ht l).length = 64)
    (hne : ps ≠ []) (hps : ∀ p ∈ ps, p ≠ []) (hsmall : ps.flatten.length ≤ M) :
    closeRun Hs Ht M true hdr ps = some
      ( { self := 0, parent := none },
        { written := ps.flatten.length
          current := chunkObj Hs Ht hdr 0 ps.flatten
          parent := none
          currentStream := some ps.flatten
          parentStream := none
          previous := [0]
          emitted := [{ obj := chunkObj Hs Ht hdr 0 ps.flatten, payload := ps.flatten,
                        selfId := 0 }]
          nextId := 1 } ) := by
  obtain ⟨st, hrun, hS⟩ := run_shape Hs Ht M hdr ps hM h32 h64 hne hps
  have hbne : ps.flatten ≠ [] := flatten_ne_nil ps hne hps
  have hk1 : (chunkify M ps.flatten).length = 1 := by
    have h1 := (chunkify_len_le_one M hM ps.flatten).mpr hsmall
    have h2 := List.length_pos.mpr (chunkify_ne_nil M hM ps.flatten hbne)
    omega
  rw [closeRun, hrun]
  simp only [Option.some_bind]
  exact closeSingle Hs Ht M hdr ps.flatten st hM h32 h64 hS hbne hk1

/-- A run of non-empty writes spanning several chunks, closed. -/
theorem closeRun_multi (Hs Ht : List Nat → List Nat) (M : Nat) (hdr : RawObject)
    (ps : List (List Nat)) (hM : M ≠ 0)
    (h32 : ∀ l, (Hs l).length = 32) (h64 : ∀ l, (Ht l).length = 64)
    (hne : ps ≠ []) (hps : ∀ p ∈ ps, p ≠ []) (hbig : M < ps.flatten.length) :
    closeRun Hs Ht M true hdr ps = some
      ( { self := (chunkify M ps.flatten).length - 1,
          parent := some (chunkify M ps.flatten).length },
        { written := ps.flatten.length
          current := { fromObject hdr with
            children := List.range (chunkify M ps.flatten).length
            parent := some { ObjMeta.empty with id := some (chunkify M ps.flatten).length }
            payloadChecksum := some (Hs [])
            payloadHomomorphicHash := some (Ht []) }
          parent := some { chunkObj Hs Ht hdr 0 (ps.flatten.take M) with
            payloadSize := some ps.flatten.length }
          currentStream := some []
          parentStream := some ps.flatten
          previous := List.range (chunkify M ps.flatten).length ++
            [(chunkify M ps.flatten).length + 1]
          emitted := chunkRecords Hs Ht hdr 0 (chunkify M ps.flatten).dropLast ++
            [{ obj := { chunkObj Hs Ht hdr ((chunkify M ps.flatten).length - 1)
                          ((chunkify M ps.flatten).getLastD []) with
                  parent := some { (chunkObj Hs Ht hdr 0 (ps.flatten.take M)).toObjMeta with
                    payloadSize := some ps.flatten.length
                    id := some (chunkify M ps.flatten).length } }
               payload := (chunkify M ps.flatten).getLastD []
               selfId := (chunkify M ps.flatten).length - 1 }] ++
            [{ obj := { fromObject hdr with
                  children := List.range (chunkify M ps.flatten).length
                  parent := some { ObjMeta.empty with id := some (chunkify M ps.flatten).length }
                  payloadChecksum := some (Hs [])
                  payloadHomomorphicHash := some (Ht []) }
               payload := []
               selfId := (chunkify M ps.flatten).length + 1 }]
          nextId := (chunkify M ps.flatten).length + 2 } ) := by
  obtain ⟨st, hrun, hS⟩ := run_shape Hs Ht M hdr ps hM h32 h64 hne hps
  have hbne : ps.flatten ≠ [] := flatten_ne_nil ps hne hps
  have hk2 : 2 ≤ (chunkify M ps.flatten).length := by
    by_contra hcon
    push_neg at hcon
    have h1 : (chunkify M ps.flatten).length ≤ 1 := by omega
    have h2 := (chunkify_len_le_one M hM ps.flatten).mp h1
    omega
  rw [closeRun, hrun]
  simp only [Option.some_bind]
  exact closeMulti Hs Ht M hdr ps.flatten st hM h32 h64 hS hbne hk2

/-! ## Observations of a completed run, and concrete digest stand-ins -/

/-- Default emission record (used only as a `getD` fallback). -/
def dfltEmitted : Emitted := { obj := RawObject.empty, payload := [], selfId := 0 }

/-- Self identifier returned by `Close`. -/
def runSelf (r : Option (AccessIdentifiers × State)) : Option Nat :=
  r.map fun p => p.1.self

/-- Number of chunk (non-auxiliary) emissions of a completed run. -/
def runChunkCount (r : Option (AccessIdentifiers × State)) : Option Nat :=
  r.map fun p => (chunkList p.2).length

/-- The very last object handed to a sink in a completed run. -/
def runLastEmitted (r : Option (AccessIdentifiers × State)) : Option Emitted :=
  r.map fun p => p.2.emitted.getLastD dfltEmitted

def lastEmittedSelf (r : Option (AccessIdentifiers × State)) : Option Nat :=
  (runLastEmitted r).map Emitted.selfId

def lastEmittedChildren (r : Option (AccessIdentifiers × State)) : Option (List Nat) :=
  (runLastEmitted r).map fun e => e.obj.children

/-- The last chunk emission of a completed run. -/
def runLastChunk (r : Option (AccessIdentifiers × State)) : Option Emitted :=
  r.map fun p => (chunkList p.2).getLastD dfltEmitted

def lastChunkParentChecksum (r : Option (AccessIdentifiers × State)) :
    Option (Option (List Nat)) :=
  (runLastChunk r).map fun e => e.obj.parent.bind fun pm => pm.payloadChecksum

def lastChunkParentSize (r : Option (AccessIdentifiers × State)) :
    Option (Option Nat) :=
  (runLastChunk r).map fun e => e.obj.parent.bind fun pm => pm.payloadSize

/-- Concrete stand-in for the external sha256 implementation: a 32-byte digest
determined by the input length. -/
def demoSHA (l : List Nat) : List Nat := l.length % 256 :: List.replicate 31 0

/-- Concrete stand-in for the external Tillich-Zemor implementation: a 64-byte
digest determined by the input length. -/
def demoTZ (l : List Nat) : List Nat := l.length % 256 :: List.replicate 63 0

theorem demoSHA_len : ∀ l, (demoSHA l).length = 32 := fun l => by simp [demoSHA]

theorem demoTZ_len : ∀ l, (demoTZ l).length = 64 := fun l => by simp [demoTZ]

/-! ## Claims -/

/-- C4: for every payload and every two ways of partitioning it into non-empty
`Write` calls, the resulting states — and hence chunk count, per-chunk payload
byte sequences and checksums — are identical, both before and after `Close`;
equivalently, `Write` over a concatenation equals the sequence of `Write`s
over its parts. -/
theorem C4_granularity (Hs Ht : List Nat → List Nat) (M : Nat) (hasF : Bool)
    (st : State) (ps qs : List (List Nat))
    (hne1 : ps ≠ []) (hps : ∀ p ∈ ps, p ≠ [])
    (hne2 : qs ≠ []) (hqs : ∀ q ∈ qs, q ≠ [])
    (hjoin : ps.flatten = qs.flatten) :
    runWrites Hs Ht M hasF st ps = runWrites Hs Ht M hasF st qs ∧
    (runWrites Hs Ht M hasF st ps).bind (releaseTrue Hs Ht hasF)
      = (runWrites Hs Ht M hasF st qs).bind (releaseTrue Hs Ht hasF) := by
  have h1 : runWrites Hs Ht M hasF st ps = runWrites Hs Ht M hasF st qs := by
    rw [runWrites_eq_flatten Hs Ht M hasF ps hne1 hps,
      runWrites_eq_flatten Hs Ht M hasF qs hne2 hqs, hjoin]
  exact ⟨h1, by rw [h1]⟩

theorem C4_granularity_witness :
    runWrites demoSHA demoTZ 2 true
        (WriteHeader RawObject.empty (NewPayloadSizeLimiter 2 true).st) [[1, 2, 3]]
      = runWrites demoSHA demoTZ 2 true
        (WriteHeader RawObject.empty (NewPayloadSizeLimiter 2 true).st) [[1], [2], [3]] ∧
    (runWrites demoSHA demoTZ 2 true
        (WriteHeader RawObject.empty (NewPayloadSizeLimiter 2 true).st) [[1, 2, 3]]).bind
        (releaseTrue demoSHA demoTZ true)
      = (runWrites demoSHA demoTZ 2 true
        (WriteHeader RawObject.empty (NewPayloadSizeLimiter 2 true).st) [[1], [2], [3]]).bind
        (releaseTrue demoSHA demoTZ true) :=
  C4_granularity demoSHA demoTZ 2 true
    (WriteHeader RawObject.empty (NewPayloadSizeLimiter 2 true).st)
    [[1, 2, 3]] [[1], [2], [3]]
    (by decide) (by decide) (by decide) (by decide) (by decide)

/-- C9: a finalized standard digest whose length differs from 32 bytes, or a
homomorphic digest whose length differs from 64 bytes, makes the checksum
writer abort (`none` models the Go panic — the modelled sink never returns an
error, so `none` is never a returned error); with correct digest lengths this
branch is unreachable and the finalized chunk carries a 32-byte standard and a
64-byte homomorphic checksum. -/
theorem C9_digest_lengths (Hs Ht : List Nat → List Nat) (feed : List Nat)
    (st : State)
    (h32 : ∀ l, (Hs l).length = 32) (h64 : ∀ l, (Ht l).length = 64) :
    (∀ cs st2, cs.length ≠ 32 → shaChecksumWrite cs st2 = none) ∧
    (∀ cs st2, cs.length ≠ 64 → tzChecksumWrite cs st2 = none) ∧
    ∃ st1, writeHashes Hs Ht feed st = some st1 ∧
      st1.current.payloadChecksum = some (Hs feed) ∧ (Hs feed).length = 32 ∧
      st1.current.payloadHomomorphicHash = some (Ht feed) ∧ (Ht feed).length = 64 := by
  refine ⟨fun cs st2 hlen => by simp [shaChecksumWrite, hlen],
    fun cs st2 hlen => by simp [tzChecksumWrite, hlen], ?_⟩
  refine ⟨{ st with current := { st.current with
      payloadChecksum := some (Hs feed)
      payloadHomomorphicHash := some (Ht feed) } }, ?_, rfl, h32 feed, rfl, h64 feed⟩
  simp [writeHashes, shaChecksumWrite, tzChecksumWrite, h32, h64]

theorem C9_digest_lengths_witness :
    (∀ cs st2, cs.length ≠ 32 → shaChecksumWrite cs st2 = none) ∧
    (∀ cs st2, cs.length ≠ 64 → tzChecksumWrite cs st2 = none) ∧
    ∃ st1, writeHashes demoSHA demoTZ [1, 2] (WriteHeader RawObject.empty {}) = some st1 ∧
      st1.current.payloadChecksum = some (demoSHA [1, 2]) ∧ (demoSHA [1, 2]).length = 32 ∧
      st1.current.payloadHomomorphicHash = some (demoTZ [1, 2]) ∧
      (demoTZ [1, 2]).length = 64 :=
  C9_digest_lengths demoSHA demoTZ [1, 2] (WriteHeader RawObject.empty {})
    demoSHA_len demoTZ_len

/-- C8 counterexample: construction does not reject an invalid configuration —
`NewPayloadSizeLimiter` with maximum size `0` (and even with no sink factory)
returns a splitter; the failure only happens at the first `Write`, as a
runtime panic. -/
theorem C8_counterexample :
    NewPayloadSizeLimiter 0 false
      = { maxSize := 0, hasTargetInit := false, st := {} } ∧
    writeChunk demoSHA demoTZ 0 true
      (WriteHeader RawObject.empty (NewPayloadSizeLimiter 0 true).st) [5] = none :=
  ⟨rfl, by decide⟩

/-- C8 (amended): construction performs no validation — any maximum size
(including 0) and an absent sink factory are accepted and a splitter is
returned; a zero maximum size makes every `Write` panic (division by zero),
and an absent sink factory makes the first `Write` panic when the first chunk
is initialized. -/
theorem C8_no_validation (M : Nat) (hasF : Bool) (Hs Ht : List Nat → List Nat)
    (hdr : RawObject) (st : State) (c : List Nat) :
    NewPayloadSizeLimiter M hasF = { maxSize := M, hasTargetInit := hasF, st := {} } ∧
    writeChunk Hs Ht 0 hasF st c = none ∧
    writeChunk Hs Ht M false (WriteHeader hdr (NewPayloadSizeLimiter M false).st) c = none := by
  refine ⟨rfl, writeChunk_M0 Hs Ht hasF st c, ?_⟩
  by_cases hM : M = 0
  · subst hM
    exact writeChunk_M0 Hs Ht false _ c
  · rw [writeChunk_eq Hs Ht M false _ c hM, boundaryStep_start Hs Ht M false _ rfl]
    simp [initializeNext, initializeCurrent, WriteHeader, NewPayloadSizeLimiter]

/-- C2 counterexample: with `M = 1`, the write sequence `[7]; []` totals
`L = 1` byte, so the claimed count is `ceil(1/1) = 1`; but the empty `Write`
lands on a positive boundary, releases the open chunk and opens a fresh one,
and `Close` then emits that fresh chunk too — 2 chunks are emitted. -/
theorem C2_counterexample :
    runChunkCount (closeRun demoSHA demoTZ 1 true RawObject.empty [[7], []]) = some 2 ∧
    ((1 : Nat) + 1 - 1) / 1 = 1 ∧ (2 : Nat) ≠ 1 :=
  ⟨by decide, by decide, by decide⟩

/-- C2 (amended): for maximum size `M > 0`, a stream of *non-empty* writes
totalling `L` bytes followed by `Close` emits exactly `ceil(L / M)` chunks;
when `L = 0`, a stream of (necessarily empty) writes with at least one `Write`
call emits exactly 1 chunk, while `Close` with no `Write` at all panics on the
nil sink instead of emitting anything. (As stated over *all* write sequences
the claim fails: an empty `Write` at a positive boundary adds an extra chunk,
see the counterexample and C10.) -/
theorem C2_chunk_count (Hs Ht : List Nat → List Nat) (M : Nat) (hdr : RawObject)
    (hM : 0 < M) (h32 : ∀ l, (Hs l).length = 32) (h64 : ∀ l, (Ht l).length = 64) :
    (∀ ps, ps ≠ [] → (∀ p ∈ ps, p ≠ []) →
      runChunkCount (closeRun Hs Ht M true hdr ps)
        = some ((ps.flatten.length + M - 1) / M)) ∧
    (∀ n, 1 ≤ n →
      runChunkCount (closeRun Hs Ht M true hdr (List.replicate n [])) = some 1) ∧
    releaseTrue Hs Ht true (WriteHeader hdr (NewPayloadSizeLimiter M true).st) = none := by
  have hM' : M ≠ 0 := by omega
  refine ⟨?_, ?_, close_without_write Hs Ht M hdr true⟩
  · intro ps hne hps
    have hbne : ps.flatten ≠ [] := flatten_ne_nil ps hne hps
    have hLpos : 1 ≤ ps.flatten.length := List.length_pos.mpr hbne
    have hcl := chunkify_length M hM' ps.flatten
    by_cases hsmall : ps.flatten.length ≤ M
    · rw [closeRun_single Hs Ht M hdr ps hM' h32 h64 hne hps hsmall]
      have hceil : (ps.flatten.length + M - 1) / M = 1 := by
        apply Nat.div_eq_of_lt_le <;> omega
      simp only [runChunkCount, Option.map_some', Option.some.injEq, chunkList,
        List.filter_cons]
      rw [if_pos (by simp [chunkObj_children])]
      simp only [List.filter_nil, List.length_cons, List.length_nil, hceil]
    · push_neg at hsmall
      rw [closeRun_multi Hs Ht M hdr ps hM' h32 h64 hne hps hsmall]
      have hk2 : 2 ≤ (chunkify M ps.flatten).length := by
        by_contra hcon
        push_neg at hcon
        have h2 := (chunkify_len_le_one M hM' ps.flatten).mp (by omega)
        omega
      have hrne : ¬(List.range (chunkify M ps.flatten).length).isEmpty = true := by
        rw [List.isEmpty_iff, List.range_eq_nil]
        omega
      simp only [runChunkCount, Option.map_some', Option.some.injEq, chunkList,
        List.filter_append, chunkRecords_filter]
      rw [List.filter_cons]
      rw [if_pos (by simp [chunkObj_children])]
      rw [List.filter_cons]
      rw [if_neg (by simpa using hrne)]
      simp only [List.filter_nil, List.length_append, List.length_cons,
        List.length_nil, List.length_dropLast, chunkRecords_length]
      omega
  · intro n hn
    rw [closeRun, emptyWrites_run Hs Ht M hdr hM' n hn]
    simp only [Option.some_bind]
    rw [releaseTrue]
    simp only [List.length_nil, gt_iff_lt, Nat.lt_irrefl, if_false, Option.some_bind]
    rw [releaseFalse_compute Hs Ht _ [] rfl rfl (h32 _) (h64 _)]
    simp [runChunkCount, chunkList, chunkObj_children, fromObject]

theorem C2_chunk_count_witness :
    runChunkCount (closeRun demoSHA demoTZ 2 true RawObject.empty [[9, 9, 9]])
      = some ((3 + 2 - 1) / 2) ∧
    runChunkCount (closeRun demoSHA demoTZ 2 true RawObject.empty (List.replicate 1 []))
      = some 1 ∧
    releaseTrue demoSHA demoTZ true
      (WriteHeader RawObject.empty (NewPayloadSizeLimiter 2 true).st) = none := by
  have h := C2_chunk_count demoSHA demoTZ 2 RawObject.empty (by decide)
    demoSHA_len demoTZ_len
  exact ⟨by simpa using h.1 [[9, 9, 9]] (by decide) (by decide),
    h.2.1 1 (by decide), h.2.2⟩

/-! ## Further observers of a completed run -/

/-- The payload byte sequences of the emitted chunks, in emission order. -/
def runChunkPayloads (r : Option (AccessIdentifiers × State)) :
    Option (List (List Nat)) :=
  r.map fun p => (chunkList p.2).map Emitted.payload

/-- The sink identifiers of the emitted chunks, in emission order. -/
def runChunkIds (r : Option (AccessIdentifiers × State)) : Option (List Nat) :=
  r.map fun p => (chunkList p.2).map Emitted.selfId

/-- The previous-references of the emitted chunks, in emission order. -/
def runChunkPrevs (r : Option (AccessIdentifiers × State)) :
    Option (List (Option Nat)) :=
  r.map fun p => (chunkList p.2).map fun e => e.obj.previousID

/-- The identifier inside the parent-reference of the last emitted object. -/
def lastEmittedParentId (r : Option (AccessIdentifiers × State)) :
    Option (Option Nat) :=
  (runLastEmitted r).map fun e => e.obj.parent.bind fun pm => pm.id

/-- The identifier inside the parent-reference of the last emitted chunk. -/
def lastChunkParentId (r : Option (AccessIdentifiers × State)) :
    Option (Option Nat) :=
  (runLastChunk r).map fun e => e.obj.parent.bind fun pm => pm.id

/-- Whether some emitted object is auxiliary: it carries children (the linking
object) or an embedded parent header (the closing chunk of a split). -/
def auxPresent (r : Option (AccessIdentifiers × State)) : Option Bool :=
  r.map fun p =>
    p.2.emitted.any fun e => !e.obj.children.isEmpty || e.obj.parent.isSome

/-- Extracting the chunks from the emission sequence of a multi-chunk close:
the trailing linking object is the only emission with children. -/
theorem filter_chunk_records (Hs Ht : List Nat → List Nat) (hdr : RawObject)
    (pls : List (List Nat)) (lastE linkE : Emitted)
    (hlast : lastE.obj.children = []) (hlink : linkE.obj.children ≠ []) :
    (chunkRecords Hs Ht hdr 0 pls ++ [lastE] ++ [linkE]).filter
        (fun e => e.obj.children.isEmpty)
      = chunkRecords Hs Ht hdr 0 pls ++ [lastE] := by
  rw [List.filter_append, List.filter_append, chunkRecords_filter]
  rw [show (([lastE] : List Emitted).filter fun e => e.obj.children.isEmpty)
      = [lastE] by simp [List.filter_cons, hlast]]
  rw [show (([linkE] : List Emitted).filter fun e => e.obj.children.isEmpty)
      = [] by simp [List.filter_cons, List.isEmpty_iff, hlink]]
  simp

theorem chunkRecords_map_prev (Hs Ht : List Nat → List Nat) (hdr : RawObject)
    (pls : List (List Nat)) : ∀ i,
    (chunkRecords Hs Ht hdr i pls).map (fun e => e.obj.previousID)
      = (List.range' i pls.length).map prevRef := by
  induction pls with
  | nil => intro i; rfl
  | cons q pls ih =>
    intro i
    simp only [chunkRecords, List.map_cons, ih, List.length_cons, List.range'_succ]
    rfl

theorem range'_zero_concat (n : Nat) :
    List.range' 0 n ++ [n] = List.range (n + 1) := by
  rw [List.range_succ, List.range_eq_range']

theorem range_map_prevRef (k : Nat) (hk : 1 ≤ k) :
    (List.range k).map prevRef = none :: (List.range (k - 1)).map some := by
  cases k with
  | zero => omega
  | succ j =>
    simp only [Nat.succ_sub_one]
    rw [List.range_succ_eq_map]
    simp only [List.map_cons, List.map_map]
    exact List.cons_eq_cons.mpr ⟨rfl, List.map_congr_left fun a _ => rfl⟩

/-- C3: for every stream of non-empty `Write`s totalling `L` bytes with maximum
size `M > 0`, the chunk payloads streamed to the sinks are exactly the
consecutive `M`-byte slices of the total payload: every chunk except the last
carries exactly `M` bytes, the last carries `L - M*(k-1)` bytes where `k` is
the chunk count, and no chunk exceeds `M` bytes. -/
theorem C3_chunk_sizes (Hs Ht : List Nat → List Nat) (M : Nat) (hdr : RawObject)
    (hM : 0 < M) (h32 : ∀ l, (Hs l).length = 32) (h64 : ∀ l, (Ht l).length = 64)
    (ps : List (List Nat)) (hne : ps ≠ []) (hps : ∀ p ∈ ps, p ≠ []) :
    runChunkPayloads (closeRun Hs Ht M true hdr ps) = some (chunkify M ps.flatten) ∧
    (∀ c ∈ (chunkify M ps.flatten).dropLast, c.length = M) ∧
    ((chunkify M ps.flatten).getLastD []).length
      = ps.flatten.length - M * ((chunkify M ps.flatten).length - 1) ∧
    (∀ c ∈ chunkify M ps.flatten, c.length ≤ M) := by
  have hM' : M ≠ 0 := by omega
  have hbne : ps.flatten ≠ [] := flatten_ne_nil ps hne hps
  refine ⟨?_, chunkify_dropLast_len M hM' ps.flatten,
    chunkify_getLast_len M hM' ps.flatten hbne, chunkify_mem_le M hM' ps.flatten⟩
  by_cases hsmall : ps.flatten.length ≤ M
  · rw [closeRun_single Hs Ht M hdr ps hM' h32 h64 hne hps hsmall,
      chunkify_small M hM' ps.flatten hbne hsmall]
    simp [runChunkPayloads, chunkList, chunkObj_children]
  · push_neg at hsmall
    rw [closeRun_multi Hs Ht M hdr ps hM' h32 h64 hne hps hsmall]
    have hk2 : 2 ≤ (chunkify M ps.flatten).length := by
      by_contra hcon
      push_neg at hcon
      have h2 := (chunkify_len_le_one M hM' ps.flatten).mp (by omega)
      omega
    simp only [runChunkPayloads, Option.map_some', Option.some.injEq, chunkList]
    rw [filter_chunk_records Hs Ht hdr _ _ _ rfl (by
      show List.range (chunkify M ps.flatten).length ≠ []
      rw [ne_eq, List.range_eq_nil]
      omega)]
    rw [List.map_append, chunkRecords_map_payload]
    show (chunkify M ps.flatten).dropLast ++ [(chunkify M ps.flatten).getLastD []] = _
    exact dropLast_concat_getLastD _ (chunkify_ne_nil M hM' ps.flatten hbne)

theorem C3_chunk_sizes_witness :
    runChunkPayloads (closeRun demoSHA demoTZ 2 true RawObject.empty [[9, 9, 9]])
      = some (chunkify 2 ([[9, 9, 9]] : List (List Nat)).flatten) ∧
    (∀ c ∈ (chunkify 2 ([[9, 9, 9]] : List (List Nat)).flatten).dropLast,
      c.length = 2) ∧
    ((chunkify 2 ([[9, 9, 9]] : List (List Nat)).flatten).getLastD []).length
      = ([[9, 9, 9]] : List (List Nat)).flatten.length
        - 2 * ((chunkify 2 ([[9, 9, 9]] : List (List Nat)).flatten).length - 1) ∧
    (∀ c ∈ chunkify 2 ([[9, 9, 9]] : List (List Nat)).flatten, c.length ≤ 2) :=
  C3_chunk_sizes demoSHA demoTZ 2 RawObject.empty (by decide) demoSHA_len demoTZ_len
    [[9, 9, 9]] (by decide) (by decide)

/-- C1 counterexample: with maximum size `1` and payload `[0, 1]`, two chunks
are produced and a linking object is generated; the last addressable object
handed to a sink is the linking object (identifier `3`, children `[0, 1]`), but
`Close` returns identifier `1` — the last chunk's identifier, not the linking
object's: `release` returns the identifiers saved before the recursive call
that releases the linking object. -/
theorem C1_counterexample :
    runSelf (closeRun demoSHA demoTZ 1 true RawObject.empty [[0, 1]]) = some 1 ∧
    lastEmittedSelf (closeRun demoSHA demoTZ 1 true RawObject.empty [[0, 1]])
      = some 3 ∧
    lastEmittedChildren (closeRun demoSHA demoTZ 1 true RawObject.empty [[0, 1]])
      = some [0, 1] ∧
    (1 : Nat) ≠ 3 :=
  ⟨by decide, by decide, by decide, by decide⟩

/-- C1 (amended): when the stream fits in a single chunk, `Close` returns that
sole chunk's identifier; when `k > 1` chunks are produced, `Close` returns the
LAST CHUNK's identifier `k - 1`, while the linking object — the last emitted
object — has the distinct identifier `k + 1` under the modelled sink. -/
theorem C1_returned_identifier (Hs Ht : List Nat → List Nat) (M : Nat)
    (hdr : RawObject) (hM : 0 < M)
    (h32 : ∀ l, (Hs l).length = 32) (h64 : ∀ l, (Ht l).length = 64)
    (ps : List (List Nat)) (hne : ps ≠ []) (hps : ∀ p ∈ ps, p ≠ []) :
    (ps.flatten.length ≤ M →
      runSelf (closeRun Hs Ht M true hdr ps) = some 0 ∧
      lastEmittedSelf (closeRun Hs Ht M true hdr ps) = some 0) ∧
    (M < ps.flatten.length →
      runSelf (closeRun Hs Ht M true hdr ps)
        = some ((chunkify M ps.flatten).length - 1) ∧
      lastEmittedSelf (closeRun Hs Ht M true hdr ps)
        = some ((chunkify M ps.flatten).length + 1) ∧
      (chunkify M ps.flatten).length - 1 ≠ (chunkify M ps.flatten).length + 1) := by
  have hM' : M ≠ 0 := by omega
  constructor
  · intro hsmall
    rw [closeRun_single Hs Ht M hdr ps hM' h32 h64 hne hps hsmall]
    exact ⟨rfl, rfl⟩
  · intro hbig
    rw [closeRun_multi Hs Ht M hdr ps hM' h32 h64 hne hps hbig]
    refine ⟨rfl, ?_, by omega⟩
    simp only [lastEmittedSelf, runLastEmitted, Option.map_some', Option.some.injEq]
    rw [List.getLastD_concat]

theorem C1_returned_identifier_witness :
    (([[0, 1]] : List (List Nat)).flatten.length ≤ 1 →
      runSelf (closeRun demoSHA demoTZ 1 true RawObject.empty [[0, 1]]) = some 0 ∧
      lastEmittedSelf (closeRun demoSHA demoTZ 1 true RawObject.empty [[0, 1]])
        = some 0) ∧
    (1 < ([[0, 1]] : List (List Nat)).flatten.length →
      runSelf (closeRun demoSHA demoTZ 1 true RawObject.empty [[0, 1]])
        = some ((chunkify 1 ([[0, 1]] : List (List Nat)).flatten).length - 1) ∧
      lastEmittedSelf (closeRun demoSHA demoTZ 1 true RawObject.empty [[0, 1]])
        = some ((chunkify 1 ([[0, 1]] : List (List Nat)).flatten).length + 1) ∧
      (chunkify 1 ([[0, 1]] : List (List Nat)).flatten).length - 1
        ≠ (chunkify 1 ([[0, 1]] : List (List Nat)).flatten).length + 1) :=
  C1_returned_identifier demoSHA demoTZ 1 RawObject.empty (by decide) demoSHA_len
    demoTZ_len [[0, 1]] (by decide) (by decide)

/-- C5: with maximum size `1` and payload bytes `[0, 1]` (two chunks `[0]` and
`[1]`), the parent header embedded in the last emitted chunk carries payload
size `2` — the total bytes written, as claimed — but its standard checksum is
`Hs [0]`, the digest of the FIRST CHUNK's payload only, not the digest
`Hs [0, 1]` of the whole payload: at `Close`, `writeHashes(s.parentHashers)`
stores the whole-payload digests through closures that write into `s.current`
(the last chunk, where they are immediately overwritten by the chunk's own
digests), so the parent object retains the checksums set when the first chunk
was released. -/
theorem C5_parent_checksum_bug (Hs Ht : List Nat → List Nat)
    (h32 : ∀ l, (Hs l).length = 32) (h64 : ∀ l, (Ht l).length = 64) :
    lastChunkParentChecksum (closeRun Hs Ht 1 true RawObject.empty [[0, 1]])
      = some (some (Hs [0])) ∧
    lastChunkParentSize (closeRun Hs Ht 1 true RawObject.empty [[0, 1]])
      = some (some 2) := by
  rw [closeRun_multi Hs Ht 1 RawObject.empty [[0, 1]] (by decide) h32 h64
    (by decide) (by decide) (by decide)]
  constructor
  · simp only [lastChunkParentChecksum, runLastChunk, Option.map_some',
      Option.some.injEq, chunkList]
    rw [filter_chunk_records Hs Ht RawObject.empty _ _ _ rfl (by
      show List.range (chunkify 1 ([[0, 1]] : List (List Nat)).flatten).length ≠ []
      decide)]
    rw [List.getLastD_concat]
    rfl
  · simp only [lastChunkParentSize, runLastChunk, Option.map_some',
      Option.some.injEq, chunkList]
    rw [filter_chunk_records Hs Ht RawObject.empty _ _ _ rfl (by
      show List.range (chunkify 1 ([[0, 1]] : List (List Nat)).flatten).length ≠ []
      decide)]
    rw [List.getLastD_concat]
    rfl

theorem C5_parent_checksum_bug_witness :
    (lastChunkParentChecksum (closeRun demoSHA demoTZ 1 true RawObject.empty [[0, 1]])
        = some (some (demoSHA [0])) ∧
      lastChunkParentSize (closeRun demoSHA demoTZ 1 true RawObject.empty [[0, 1]])
        = some (some 2)) ∧
    demoSHA [0] ≠ demoSHA [0, 1] :=
  ⟨C5_parent_checksum_bug demoSHA demoTZ demoSHA_len demoTZ_len, by decide⟩

/-- C6: for every completed stream of non-empty writes, an auxiliary object —
an emitted object with children (the linking object) or an embedded parent
header (the closing chunk of a split) — is present among the emissions exactly
when more than one chunk was produced; and more than one chunk is produced
exactly when the total payload exceeds the maximum size. -/
theorem C6_aux_iff (Hs Ht : List Nat → List Nat) (M : Nat) (hdr : RawObject)
    (hM : 0 < M) (h32 : ∀ l, (Hs l).length = 32) (h64 : ∀ l, (Ht l).length = 64)
    (ps : List (List Nat)) (hne : ps ≠ []) (hps : ∀ p ∈ ps, p ≠ []) :
    auxPresent (closeRun Hs Ht M true hdr ps)
      = some (decide (1 < (chunkify M ps.flatten).length)) ∧
    (1 < (chunkify M ps.flatten).length ↔ M < ps.flatten.length) := by
  have hM' : M ≠ 0 := by omega
  have hbne : ps.flatten ≠ [] := flatten_ne_nil ps hne hps
  have hiff : 1 < (chunkify M ps.flatten).length ↔ M < ps.flatten.length := by
    rw [← Nat.not_le, ← Nat.not_le]
    exact not_congr (chunkify_len_le_one M hM' ps.flatten)
  refine ⟨?_, hiff⟩
  by_cases hsmall : ps.flatten.length ≤ M
  · have hk1 : (chunkify M ps.flatten).length = 1 := by
      have h1 := (chunkify_len_le_one M hM' ps.flatten).mpr hsmall
      have h2 := List.length_pos.mpr (chunkify_ne_nil M hM' ps.flatten hbne)
      omega
    rw [closeRun_single Hs Ht M hdr ps hM' h32 h64 hne hps hsmall, hk1]
    rfl
  · push_neg at hsmall
    have hk2 : 2 ≤ (chunkify M ps.flatten).length := by
      by_contra hcon
      push_neg at hcon
      have h2 := (chunkify_len_le_one M hM' ps.flatten).mp (by omega)
      omega
    rw [closeRun_multi Hs Ht M hdr ps hM' h32 h64 hne hps hsmall]
    simp only [auxPresent, Option.map_some', Option.some.injEq]
    rw [show decide (1 < (chunkify M ps.flatten).length) = true
      from decide_eq_true (by omega)]
    refine List.any_eq_true.mpr ⟨_, List.mem_append_right _ (List.mem_singleton.mpr rfl), ?_⟩
    rw [Bool.or_eq_true]
    left
    have hre : (List.range (chunkify M ps.flatten).length).isEmpty = false := by
      cases hre : (List.range (chunkify M ps.flatten).length).isEmpty with
      | false => rfl
      | true =>
        have h0 := List.isEmpty_iff.mp hre
        rw [List.range_eq_nil] at h0
        omega
    show (!(List.range (chunkify M ps.flatten).length).isEmpty) = true
    rw [hre]
    rfl

theorem C6_aux_iff_witness :
    auxPresent (closeRun demoSHA demoTZ 1 true RawObject.empty [[0, 1]])
      = some (decide (1 < (chunkify 1 ([[0, 1]] : List (List Nat)).flatten).length)) ∧
    (1 < (chunkify 1 ([[0, 1]] : List (List Nat)).flatten).length ↔
      1 < ([[0, 1]] : List (List Nat)).flatten.length) :=
  C6_aux_iff demoSHA demoTZ 1 RawObject.empty (by decide) demoSHA_len demoTZ_len
    [[0, 1]] (by decide) (by decide)

/-- C7: for every multi-chunk stream, the emitted chunks carry identifiers
`0, …, k-1` in emission order; the first chunk has no previous-reference and
each subsequent chunk's previous-reference is the sink identifier of the
immediately preceding chunk; the linking object's children list equals the
full chunk identifier sequence in emission order; and both the linking
object's and the last chunk's parent-references carry the ParentObject's
identifier `k`. -/
theorem C7_chain_and_linking (Hs Ht : List Nat → List Nat) (M : Nat)
    (hdr : RawObject) (hM : 0 < M)
    (h32 : ∀ l, (Hs l).length = 32) (h64 : ∀ l, (Ht l).length = 64)
    (ps : List (List Nat)) (hne : ps ≠ []) (hps : ∀ p ∈ ps, p ≠ [])
    (hbig : M < ps.flatten.length) :
    runChunkIds (closeRun Hs Ht M true hdr ps)
      = some (List.range (chunkify M ps.flatten).length) ∧
    runChunkPrevs (closeRun Hs Ht M true hdr ps)
      = some (none :: (List.range ((chunkify M ps.flatten).length - 1)).map some) ∧
    lastEmittedChildren (closeRun Hs Ht M true hdr ps)
      = some (List.range (chunkify M ps.flatten).length) ∧
    lastEmittedParentId (closeRun Hs Ht M true hdr ps)
      = some (some (chunkify M ps.flatten).length) ∧
    lastChunkParentId (closeRun Hs Ht M true hdr ps)
      = some (some (chunkify M ps.flatten).length) := by
  have hM' : M ≠ 0 := by omega
  have hk2 : 2 ≤ (chunkify M ps.flatten).length := by
    by_contra hcon
    push_neg at hcon
    have h2 := (chunkify_len_le_one M hM' ps.flatten).mp (by omega)
    omega
  have hlk : List.range (chunkify M ps.flatten).length ≠ [] := by
    rw [ne_eq, List.range_eq_nil]
    omega
  have hconc : List.range' 0 ((chunkify M ps.flatten).length - 1)
      ++ [(chunkify M ps.flatten).length - 1]
      = List.range (chunkify M ps.flatten).length := by
    rw [range'_zero_concat]
    congr 1
    omega
  rw [closeRun_multi Hs Ht M hdr ps hM' h32 h64 hne hps hbig]
  refine ⟨?_, ?_, ?_, ?_, ?_⟩
  · simp only [runChunkIds, Option.map_some', Option.some.injEq, chunkList]
    rw [filter_chunk_records Hs Ht hdr _ _ _ rfl hlk]
    rw [List.map_append, chunkRecords_map_selfId, List.length_dropLast]
    exact hconc
  · simp only [runChunkPrevs, Option.map_some', Option.some.injEq, chunkList]
    rw [filter_chunk_records Hs Ht hdr _ _ _ rfl hlk]
    rw [List.map_append, chunkRecords_map_prev, List.length_dropLast]
    have h2 : ([prevRef ((chunkify M ps.flatten).length - 1)] : List (Option Nat))
        = List.map prevRef [(chunkify M ps.flatten).length - 1] := rfl
    have h1 : (List.range' 0 ((chunkify M ps.flatten).length - 1)).map prevRef
        ++ [prevRef ((chunkify M ps.flatten).length - 1)]
        = none :: (List.range ((chunkify M ps.flatten).length - 1)).map some := by
      rw [h2, ← List.map_append, hconc, range_map_prevRef _ (by omega)]
    exact h1
  · simp only [lastEmittedChildren, runLastEmitted, Option.map_some',
      Option.some.injEq]
    rw [List.getLastD_concat]
  · simp only [lastEmittedParentId, runLastEmitted, Option.map_some',
      Option.some.injEq]
    rw [List.getLastD_concat]
    rfl
  · simp only [lastChunkParentId, runLastChunk, Option.map_some',
      Option.some.injEq, chunkList]
    rw [filter_chunk_records Hs Ht hdr _ _ _ rfl hlk, List.getLastD_concat]
    rfl

theorem C7_chain_and_linking_witness :
    runChunkIds (closeRun demoSHA demoTZ 1 true RawObject.empty [[0, 1]])
      = some (List.range (chunkify 1 ([[0, 1]] : List (List Nat)).flatten).length) ∧
    runChunkPrevs (closeRun demoSHA demoTZ 1 true RawObject.empty [[0, 1]])
      = some (none :: (List.range
          ((chunkify 1 ([[0, 1]] : List (List Nat)).flatten).length - 1)).map some) ∧
    lastEmittedChildren (closeRun demoSHA demoTZ 1 true RawObject.empty [[0, 1]])
      = some (List.range (chunkify 1 ([[0, 1]] : List (List Nat)).flatten).length) ∧
    lastEmittedParentId (closeRun demoSHA demoTZ 1 true RawObject.empty [[0, 1]])
      = some (some (chunkify 1 ([[0, 1]] : List (List Nat)).flatten).length) ∧
    lastChunkParentId (closeRun demoSHA demoTZ 1 true RawObject.empty [[0, 1]])
      = some (some (chunkify 1 ([[0, 1]] : List (List Nat)).flatten).length) :=
  C7_chain_and_linking demoSHA demoTZ 1 RawObject.empty (by decide) demoSHA_len
    demoTZ_len [[0, 1]] (by decide) (by decide) (by decide)

/-- C10: when the bytes written so far are a positive exact multiple of the
maximum size, an empty `Write` lands on the boundary check, releases the open
chunk and opens a fresh one; `Close` then emits that fresh chunk with zero
payload bytes, so the emitted chunk count `L/M + 1` exceeds `ceil(L/M)`. -/
theorem C10_empty_write_extra_chunk (Hs Ht : List Nat → List Nat) (M : Nat)
    (hdr : RawObject) (hM : 0 < M)
    (h32 : ∀ l, (Hs l).length = 32) (h64 : ∀ l, (Ht l).length = 64)
    (bytes : List Nat) (hb : bytes ≠ []) (hmod : bytes.length % M = 0) :
    runChunkCount (closeRun Hs Ht M true hdr [bytes, []])
      = some (bytes.length / M + 1) ∧
    (bytes.length + M - 1) / M < bytes.length / M + 1 := by
  have hM' : M ≠ 0 := by omega
  have hLpos : 1 ≤ bytes.length := List.length_pos.mpr hb
  obtain ⟨q, hq⟩ := Nat.dvd_of_mod_eq_zero hmod
  have hceil : (bytes.length + M - 1) / M = q := by
    rw [hq, show M * q + M - 1 = M * q + (M - 1) by omega,
      Nat.mul_add_div hM, Nat.div_eq_of_lt (by omega)]
    omega
  have hdiv : bytes.length / M = q := by
    rw [hq, Nat.mul_div_cancel_left q hM]
  have hkpos : 1 ≤ (chunkify M bytes).length :=
    List.length_pos.mpr (chunkify_ne_nil M hM' bytes hb)
  refine ⟨?_, by omega⟩
  obtain ⟨st1, hst1, hS⟩ := shape_run Hs Ht M hdr hM' h32 h64 bytes hb
  have h1 : runWrites Hs Ht M true (WriteHeader hdr (NewPayloadSizeLimiter M true).st)
      [bytes] = some st1 := by
    rw [runWrites_cons, hst1]
    rfl
  rw [closeRun, show ([bytes, []] : List (List Nat)) = [bytes] ++ [[]] from rfl,
    runWrites_append, h1]
  simp only [Option.some_bind]
  rw [runWrites_cons]
  obtain ⟨c2, h2, hw2⟩ := emptyWrite_boundary Hs Ht M hdr bytes st1 hM' h32 h64 hS hb hmod
  rw [hw2]
  simp only [Option.some_bind, runWrites_nil]
  rw [closeWithParent Hs Ht _ [] bytes (chunkObj Hs Ht hdr 0 (bytes.take M)) h32 h64
    (by simpa using hkpos) (by rfl) (by rfl) (by rfl) (by rfl) (by rfl)]
  simp only [runChunkCount, Option.map_some', Option.some.injEq, chunkList]
  rw [filter_chunk_records Hs Ht hdr _ _ _ rfl (by
    show List.range (chunkify M bytes).length ++ [(chunkify M bytes).length] ≠ []
    simp)]
  simp only [List.length_append, List.length_cons, List.length_nil,
    chunkRecords_length, chunkify_length M hM' bytes]
  omega

theorem C10_empty_write_extra_chunk_witness :
    runChunkCount (closeRun demoSHA demoTZ 2 true RawObject.empty [[5, 6], []])
      = some (([5, 6] : List Nat).length / 2 + 1) ∧
    (([5, 6] : List Nat).length + 2 - 1) / 2 < ([5, 6] : List Nat).length / 2 + 1 :=
  C10_empty_write_extra_chunk demoSHA demoTZ 2 RawObject.empty (by decide)
    demoSHA_len demoTZ_len [5, 6] (by decide) (by decide)
